import Mathlib

/-!
Verification of the qvis state-inference core against its specification.

The definitions below are shallow embeddings of the Rust sources:
* `src/src/hungarian_algorithm.rs` (maximum-weight bipartite matching),
* `src/qvis/src/inference.rs` (color density estimation, quickselect),
* `src/qvis/src/puzzle_matching/mod.rs` (orbit matcher, whole-puzzle composer),
* `src/qvis/src/lib.rs` (`CVProcessor`).

Machine floats (`f64`) are modelled as exact rationals `ℚ`; `f64::total_cmp`
on such values coincides with the rational order.  Panics (failed `assert!`,
`unwrap` on `None`) are modelled as explicit failure outcomes.  Loops whose
termination is not structurally evident are given explicit fuel; exhausting
the fuel is reported as a separate `diverge` outcome, distinct from both a
normal return and a panic.
-/

namespace Qvis

/-- The comparison tolerance `E = 1e-9` from `hungarian_algorithm.rs`. -/
def E : ℚ := 1 / 1000000000

/-- One side of a bipartite-graph node (`struct Node` in the source):
potential, current match, BFS back-pointer, visited flag. -/
structure HNode where
  potential : ℚ
  matchesWith : Option ℕ
  bfsComesFrom : Option ℕ
  visited : Bool
deriving DecidableEq

/-- The all-default node (`Node::default()`). -/
def HNode.default : HNode :=
  { potential := 0, matchesWith := none, bfsComesFrom := none, visited := false }

/-- A left node and a right node stored together (`struct Element`). -/
structure HElement where
  left : HNode
  right : HNode
deriving DecidableEq

/-- `Element::default()`. -/
def HElement.default : HElement := { left := HNode.default, right := HNode.default }

/-- Replace the element at position `i` of a list by `f` of it; out-of-range
indices leave the list unchanged (in the source all indices are in range). -/
def modifyAt {α : Type} : List α → ℕ → (α → α) → List α
  | [], _, _ => []
  | a :: l, 0, f => f a :: l
  | a :: l, n + 1, f => a :: modifyAt l n f

/-- Read the element at position `i`, defaulting out of range (never hit on
the in-range accesses performed by the source). -/
def getElt (data : List HElement) (i : ℕ) : HElement :=
  data.getD i HElement.default

/-- A cost table: `costs[i][j]`, `none` being a disallowed edge. -/
abbrev CostTable : Type := List (List (Option ℚ))

/-- Entry lookup `costs[i][j]` (out of range reads as disallowed). -/
def costAt (costs : CostTable) (i j : ℕ) : Option ℚ :=
  (costs.getD i []).getD j none

/-- Minimum of a list of rationals, `none` on the empty list
(models `Iterator::min_by(f64::total_cmp)`). -/
def listMin? (l : List ℚ) : Option ℚ :=
  l.foldl (fun acc x => match acc with | none => some x | some m => some (min m x)) none

/-- Maximum of a list of rationals, `none` on the empty list
(models `Iterator::max_by(f64::total_cmp)`). -/
def listMax? (l : List ℚ) : Option ℚ :=
  l.foldl (fun acc x => match acc with | none => some x | some m => some (max m x)) none

/-- Scan, from left node `leftIdx`, the right indices `rights` in increasing
order: the inner `for right_idx in 0..costs.len()` loop of
`find_augmenting_path`.  `Except.error (r, data)` models the early
`return Some(right_idx)` (an unmatched right endpoint was found);
`Except.ok` carries the updated node data and the accumulated next BFS level. -/
def bfsScanLeft (costs : CostTable) (leftIdx : ℕ) :
    List ℕ → List HElement → List ℕ → Except (ℕ × List HElement) (List HElement × List ℕ)
  | [], data, nextLevel => .ok (data, nextLevel)
  | rightIdx :: rest, data, nextLevel =>
    match costAt costs leftIdx rightIdx with
    | none => bfsScanLeft costs leftIdx rest data nextLevel
    | some c =>
      if (getElt data rightIdx).right.visited = false ∧
          |(getElt data leftIdx).left.potential + (getElt data rightIdx).right.potential - c| < E
      then
        let data1 := modifyAt data rightIdx fun e =>
          { e with right := { e.right with bfsComesFrom := some leftIdx, visited := true } }
        match (getElt data1 rightIdx).right.matchesWith with
        | some newLeftIdx =>
          if (getElt data1 newLeftIdx).left.visited = false then
            let data2 := modifyAt data1 newLeftIdx fun e =>
              { e with left := { e.left with bfsComesFrom := some rightIdx, visited := true } }
            bfsScanLeft costs leftIdx rest data2 (nextLevel ++ [newLeftIdx])
          else
            bfsScanLeft costs leftIdx rest data1 nextLevel
        | none => .error (rightIdx, data1)
      else
        bfsScanLeft costs leftIdx rest data nextLevel

/-- Process every left node of the current BFS level (the
`for left_idx in current_level.drain(..)` loop). -/
def bfsProcessLevel (costs : CostTable) :
    List ℕ → List HElement → List ℕ → Except (ℕ × List HElement) (List HElement × List ℕ)
  | [], data, nextLevel => .ok (data, nextLevel)
  | l :: ls, data, nextLevel =>
    match bfsScanLeft costs l (List.range costs.length) data nextLevel with
    | .error r => .error r
    | .ok (data1, nextLevel1) => bfsProcessLevel costs ls data1 nextLevel1

/-- The `while !current_level.is_empty()` loop of `find_augmenting_path`,
given fuel (each BFS level marks previously unvisited left nodes, so
`costs.length + 1` levels always suffice). -/
def bfsLevels (costs : CostTable) : ℕ → List ℕ → List HElement → Option (List HElement × Option ℕ)
  | 0, _, _ => none
  | fuel + 1, currentLevel, data =>
    if currentLevel = [] then some (data, none)
    else
      match bfsProcessLevel costs currentLevel data [] with
      | .error (rightIdx, data1) => some (data1, some rightIdx)
      | .ok (data1, nextLevel) => bfsLevels costs fuel nextLevel data1

/-- `find_augmenting_path`: reset the BFS bookkeeping, mark the start node
visited and run the level BFS.  Result `some (data, some r)` means an
augmenting path ending at unmatched right node `r` was found; `some (data,
none)` means the search completed without one; `none` is fuel exhaustion
(never reached: the fuel passed covers every possible level count). -/
def find_augmenting_path (costs : CostTable) (startFrom : ℕ) (data : List HElement) :
    Option (List HElement × Option ℕ) :=
  let data0 := data.map fun e =>
    { left := { e.left with bfsComesFrom := none, visited := false },
      right := { e.right with bfsComesFrom := none, visited := false } }
  let data1 := modifyAt data0 startFrom fun e =>
    { e with left := { e.left with visited := true } }
  bfsLevels costs (costs.length + 1) [startFrom] data1

/-- `toggle_augmenting_path`: walk the BFS back-pointers from `endpoint`,
xoring the matching along the path.  `none` covers fuel exhaustion and a
missing back-pointer (the source `unwrap`s it; after a successful search the
pointer is always present). -/
def toggle_augmenting_path : ℕ → ℕ → List HElement → Option (List HElement)
  | 0, _, _ => none
  | fuel + 1, endpoint, data =>
    match (getElt data endpoint).right.bfsComesFrom with
    | none => none
    | some leftSide =>
      let data1 := modifyAt data endpoint fun e =>
        { e with right := { e.right with matchesWith := some leftSide } }
      let data2 := modifyAt data1 leftSide fun e =>
        { e with left := { e.left with matchesWith := some endpoint } }
      match (getElt data2 leftSide).left.bfsComesFrom with
      | some nextEndpoint => toggle_augmenting_path fuel nextEndpoint data2
      | none => some data2

/-- `relax_potentials`: compute `δ`, the least reduced cost over defined
edges from a visited left node to an unvisited right node; return `false`
if there is none or if `|δ| < E`, else shift the visited potentials by `δ`. -/
def relax_potentials (costs : CostTable) (data : List HElement) : Bool × List HElement :=
  let reduced := (costs.enum.map fun (i, row) =>
    row.enum.filterMap fun (j, v) =>
      match v with
      | none => none
      | some c =>
        if (getElt data i).left.visited = true ∧ (getElt data j).right.visited = false then
          some ((getElt data i).left.potential + (getElt data j).right.potential - c)
        else none).flatten
  match listMin? reduced with
  | none => (false, data)
  | some δ =>
    if |δ| < E then (false, data)
    else
      (true, data.map fun e =>
        let e1 := if e.left.visited then
            { e with left := { e.left with potential := e.left.potential - δ } } else e
        if e1.right.visited then
          { e1 with right := { e1.right with potential := e1.right.potential + δ } } else e1)

/-- Outcome of running `maximum_matching`: a panic (failed `assert!` or
`unwrap` on `None`), fuel exhaustion of the model, or the function's actual
return value. -/
inductive MMResult where
  | panicked : MMResult
  | diverge : MMResult
  | returned : Option (List ℕ) → MMResult
deriving DecidableEq

/-- The `while let Some((i, _)) = ... find unmatched left` main loop of
`maximum_matching`, with fuel. -/
def hungarianLoop (costs : CostTable) : ℕ → List HElement → MMResult
  | 0, _ => .diverge
  | fuel + 1, data =>
    match data.enum.find? (fun ie => ie.2.left.matchesWith = none) with
    | none => .returned (some (data.map fun e => e.left.matchesWith.getD 0))
    | some (i, _) =>
      match find_augmenting_path costs i data with
      | none => .diverge
      | some (data1, some endpoint) =>
        match toggle_augmenting_path (2 * data1.length + 1) endpoint data1 with
        | none => .diverge
        | some data2 => hungarianLoop costs fuel data2
      | some (data1, none) =>
        match relax_potentials costs data1 with
        | (false, _) => .returned none
        | (true, data2) => hungarianLoop costs fuel data2

/-- `maximum_matching` from `hungarian_algorithm.rs`: empty input returns the
empty matching; the two `assert!`s reject ragged and non-square tables; the
`max_by(...).unwrap()` seeding the left potentials panics when no entry is
defined; then the augmenting-path loop runs. -/
def maximum_matching (costs : CostTable) : MMResult :=
  if costs = [] then .returned (some [])
  else if ¬ (costs.map List.length).all (fun n => n = (costs.headD []).length) then .panicked
  else if costs.length ≠ (costs.headD []).length then .panicked
  else
    match listMax? ((costs.map (List.filterMap id)).flatten) with
    | none => .panicked
    | some minCost =>
      let data := List.replicate costs.length
        { left := { HNode.default with potential := minCost }, right := HNode.default }
      hungarianLoop costs ((costs.length + 2) * (costs.length + 2)) data

/-- Sum of the costs selected by assignment `m` (position `i` matched to
column `m i`); `none` when some selected entry is disallowed or missing. -/
def matchingSum (costs : CostTable) (m : List ℕ) : Option ℚ :=
  (costs.zip m).foldr
    (fun rj acc =>
      match acc, rj.1.getD rj.2 none with
      | some s, some c => some (s + c)
      | _, _ => none)
    (some 0)

/-- Brute-force optimum: the best defined matching sum over all permutation
assignments of `{0, …, n−1}`. -/
def bruteForceOpt (costs : CostTable) : Option ℚ :=
  listMax? ((List.range costs.length).permutations.filterMap (matchingSum costs))

/-- C2: evaluation of `maximum_matching` at two inputs where it contradicts
both the claim and its own doc comment.  A 1×1 table whose only entry is
disallowed admits no perfect matching, yet the function panics (the
`max_by(..).unwrap()` seeding the potentials finds no defined entry) instead
of returning `None`.  And on `[[0, 4e-10], [4e-10, 0]]`, whose entries differ
by less than the tolerance `E = 1e-9`, it returns the matching `[0, 1]` with
sum `0`, strictly below the brute-force optimum `8e-10` attained by `[1, 0]`. -/
theorem C2_maximum_matching_failing_inputs :
    maximum_matching [[none]] = .panicked ∧
    maximum_matching [[some 0, some (4 / 10 ^ 10)], [some (4 / 10 ^ 10), some 0]] =
      .returned (some [0, 1]) ∧
    matchingSum [[some 0, some (4 / 10 ^ 10)], [some (4 / 10 ^ 10), some 0]] [0, 1] = some 0 ∧
    bruteForceOpt [[some 0, some (4 / 10 ^ 10)], [some (4 / 10 ^ 10), some 0]] =
      some (8 / 10 ^ 10) ∧
    (0 : ℚ) < 8 / 10 ^ 10 := by
  refine ⟨?_, ?_, ?_, ?_, ?_⟩ <;> with_unfolding_all rfl

/-- The spec's matching-sanity table `[[-8,-4,-7],[-6,-2,-3],[-9,-4,-8]]`. -/
def sanityTable : CostTable :=
  [[some (-8), some (-4), some (-7)],
   [some (-6), some (-2), some (-3)],
   [some (-9), some (-4), some (-8)]]

/-- C6 counterexample: on the sanity table the returned matching is indeed
`[0, 2, 1]`, but the sum of the costs along it is `−8 + −3 + −4 = −15`, not
`−13` as the claim states (this also equals the brute-force optimum). -/
theorem C6_sum_is_not_13 :
    matchingSum sanityTable [0, 2, 1] = some (-15) ∧ ((-15 : ℚ) = -13 → False) := by
  exact ⟨by with_unfolding_all rfl, by norm_num⟩

/-- C6 (amended): on the sanity table `maximum_matching` returns the matching
`[0, 2, 1]`, and the sum of the costs along that matching is `−15`, which is
also the brute-force optimum. -/
theorem C6_sanity_run :
    maximum_matching sanityTable = .returned (some [0, 2, 1]) ∧
    matchingSum sanityTable [0, 2, 1] = some (-15) ∧
    bruteForceOpt sanityTable = some (-15) := by
  refine ⟨?_, ?_, ?_⟩ <;> with_unfolding_all rfl

/-- C9: on every non-empty table whose rows are not all of equal length, or
whose row count differs from its common row length, `maximum_matching` panics
at one of its two `assert!`s before touching any matching state: it neither
returns `none` nor any matching. -/
theorem C9_nonsquare_panics (costs : CostTable) (hne : costs ≠ [])
    (h : (costs.map List.length).all (fun n => n = (costs.headD []).length) = false ∨
      costs.length ≠ (costs.headD []).length) :
    maximum_matching costs = .panicked := by
  unfold maximum_matching
  rw [if_neg hne]
  cases hb : (costs.map List.length).all (fun n => n = (costs.headD []).length) with
  | false => simp [hb]
  | true =>
    have h2 : costs.length ≠ (costs.headD []).length := by
      rcases h with h | h
      · rw [hb] at h
        exact absurd h (by simp)
      · exact h
    rw [List.headD_eq_head?] at h2
    simp [hb, h2]

/-- C9 witness: the 2×1 table `[[0], [0]]` has equal-length rows but 2 ≠ 1
columns, and `maximum_matching` panics on it. -/
theorem C9_nonsquare_panics_witness :
    (([[some 0], [some 0]] : CostTable) ≠ [] ∧
      ([[some 0], [some 0]] : CostTable).length ≠
        (([[some 0], [some 0]] : CostTable).headD []).length) ∧
    maximum_matching [[some 0], [some 0]] = .panicked :=
  ⟨⟨by decide, by decide⟩,
    C9_nonsquare_panics [[some 0], [some 0]] (by decide) (Or.inr (by decide))⟩

/-!
Quickselect, from `src/qvis/src/inference.rs`.  Slices are modelled as
`List α` over a linear order; the comparator `by` (the source passes
`f64::total_cmp`, the total order on our exact rationals) is modelled by the
order's `compare`, so `matches!(by(a, b), Ordering::Less)` is `a < b`.  The
random pivot draw `rng.random_range(0..len)` is modelled by an arbitrary
stream `rng : ℕ → ℕ` of draws reduced mod `len`; the proofs hold for every
stream.  Out-of-range reads (never performed by the source) default via
`List.getD`.
-/

/-- Swap the entries at positions `i` and `j` (`slice.swap(i, j)`). -/
def swapL {α : Type} [Inhabited α] (l : List α) (i j : ℕ) : List α :=
  (l.set i (l.getD j default)).set j (l.getD i default)

/-- The first inner loop of `partition`: advance `i` while `i` is in range
and `slice[i]` is not less than the pivot `slice[0]`. -/
def partitionAdvance {α : Type} [LinearOrder α] [Inhabited α] (l : List α) (i : ℕ) : ℕ :=
  if i < l.length ∧ ¬ l.getD i default < l.getD 0 default then
    partitionAdvance l (i + 1)
  else i
termination_by l.length - i
decreasing_by omega

/-- The second inner loop of `partition`: retreat `j` while `slice[j]` is
less than the pivot `slice[0]` (it stops at 0 at the latest since the pivot
is not less than itself). -/
def partitionRetreat {α : Type} [LinearOrder α] [Inhabited α] (l : List α) (j : ℕ) : ℕ :=
  if h : l.getD j default < l.getD 0 default then
    partitionRetreat l (j - 1)
  else j
termination_by j
decreasing_by
  rcases Nat.eq_zero_or_pos j with h0 | hp
  · subst h0
    exact absurd h (lt_irrefl _)
  · omega

/-- `i` never decreases across `partitionAdvance`. -/
theorem partitionAdvance_le {α : Type} [LinearOrder α] [Inhabited α] (l : List α) (i : ℕ) :
    i ≤ partitionAdvance l i := by
  rw [partitionAdvance]
  split_ifs with h
  · exact le_trans (by omega) (partitionAdvance_le l (i + 1))
  · exact le_refl i
termination_by l.length - i
decreasing_by omega

/-- `j` never increases across `partitionRetreat`. -/
theorem partitionRetreat_le {α : Type} [LinearOrder α] [Inhabited α] (l : List α) (j : ℕ) :
    partitionRetreat l j ≤ j := by
  rw [partitionRetreat]
  split_ifs with h
  · have hj : 0 < j := by
      rcases Nat.eq_zero_or_pos j with h0 | hp
      · subst h0
        exact absurd h (lt_irrefl _)
      · exact hp
    exact le_trans (partitionRetreat_le l (j - 1)) (by omega)
  · exact le_refl j
termination_by j
decreasing_by
  rcases Nat.eq_zero_or_pos j with h0 | hp
  · subst h0
    exact absurd h (lt_irrefl _)
  · omega

/-- The outer `loop` of `partition`: with the pivot parked at position 0,
scan inward from `i` and `j` (`partitionAdvance l i` and `partitionRetreat
l j` are the values of the two indices when their inner loops stop),
swapping out-of-place pairs; once the indices cross, swap the pivot into its
slot and return it. -/
def partitionLoop {α : Type} [LinearOrder α] [Inhabited α] (l : List α) (i j : ℕ) :
    ℕ × List α :=
  if partitionRetreat l j < partitionAdvance l i then
    (partitionRetreat l j, swapL l 0 (partitionRetreat l j))
  else
    partitionLoop (swapL l (partitionAdvance l i) (partitionRetreat l j))
      (partitionAdvance l i + 1) (partitionRetreat l j)
termination_by j + 1 - i
decreasing_by
  have h1 := partitionAdvance_le l i
  have h2 := partitionRetreat_le l j
  omega

/-- `partition` from the source: swap a random element into position 0 as
the pivot, then run the two-pointer loop starting at `i = 1`,
`j = slice.len() - 1`. -/
def partition {α : Type} [LinearOrder α] [Inhabited α] (r : ℕ) (l : List α) :
    ℕ × List α :=
  partitionLoop (swapL l 0 (r % l.length)) 1 ((swapL l 0 (r % l.length)).length - 1)

/-- `swapL` preserves length. -/
theorem swapL_length {α : Type} [Inhabited α] (l : List α) (i j : ℕ) :
    (swapL l i j).length = l.length := by
  simp [swapL]

/-- The returned split point of `partitionLoop` is at most the starting `j`. -/
theorem partitionLoop_fst_le {α : Type} [LinearOrder α] [Inhabited α] (l : List α) (i j : ℕ) :
    (partitionLoop l i j).1 ≤ j := by
  rw [partitionLoop]
  split_ifs with h
  · exact partitionRetreat_le l j
  · exact le_trans (partitionLoop_fst_le _ _ _) (partitionRetreat_le l j)
termination_by j + 1 - i
decreasing_by
  have h1 := partitionAdvance_le l i
  have h2 := partitionRetreat_le l j
  omega

/-- `partitionLoop` preserves length. -/
theorem partitionLoop_length {α : Type} [LinearOrder α] [Inhabited α] (l : List α) (i j : ℕ) :
    (partitionLoop l i j).2.length = l.length := by
  rw [partitionLoop]
  split_ifs with h
  · exact swapL_length l 0 _
  · rw [partitionLoop_length]
    exact swapL_length l _ _
termination_by j + 1 - i
decreasing_by
  have h1 := partitionAdvance_le l i
  have h2 := partitionRetreat_le l j
  omega

/-- `partition` preserves length. -/
theorem partition_length {α : Type} [LinearOrder α] [Inhabited α] (r : ℕ) (l : List α) :
    (partition r l).2.length = l.length := by
  rw [partition, partitionLoop_length, swapL_length]

/-- On a non-empty list the split point returned by `partition` is in range. -/
theorem partition_fst_lt {α : Type} [LinearOrder α] [Inhabited α] (r : ℕ) (l : List α)
    (h : 0 < l.length) : (partition r l).1 < l.length := by
  have h1 := partitionLoop_fst_le (swapL l 0 (r % l.length)) 1
    ((swapL l 0 (r % l.length)).length - 1)
  have h2 := swapL_length l 0 (r % l.length)
  rw [partition]
  omega

/-- Reading the first swapped slot gives the other slot's old value. -/
theorem swapL_getD_fst {α : Type} [Inhabited α] (l : List α) (i j : ℕ)
    (hi : i < l.length) (hj : j < l.length) :
    (swapL l i j).getD i default = l.getD j default := by
  rcases eq_or_ne i j with rfl | hne
  · rw [swapL, List.getD_eq_getElem _ _ (by simp [hi]), List.getElem_set_self]
  · rw [swapL, List.getD_eq_getElem _ _ (by simp [hi]),
      List.getElem_set_ne (Ne.symm hne), List.getElem_set_self,
      List.getD_eq_getElem _ _ hj]

/-- Reading the second swapped slot gives the first slot's old value. -/
theorem swapL_getD_snd {α : Type} [Inhabited α] (l : List α) (i j : ℕ)
    (hj : j < l.length) :
    (swapL l i j).getD j default = l.getD i default := by
  rw [swapL, List.getD_eq_getElem _ _ (by simp [hj]), List.getElem_set_self]

/-- Positions other than the two swapped ones are untouched. -/
theorem swapL_getD_other {α : Type} [Inhabited α] (l : List α) (i j x : ℕ)
    (hx1 : x ≠ i) (hx2 : x ≠ j) :
    (swapL l i j).getD x default = l.getD x default := by
  rcases Nat.lt_or_ge x l.length with hx | hx
  · rw [swapL, List.getD_eq_getElem _ _ (by simp [hx]),
      List.getElem_set_ne (Ne.symm hx2), List.getElem_set_ne (Ne.symm hx1),
      List.getD_eq_getElem _ _ hx]
  · rw [List.getD_eq_getElem?_getD, List.getD_eq_getElem?_getD,
      List.getElem?_eq_none (by simpa [swapL] using hx), List.getElem?_eq_none hx]

/-- Swapping two in-range slots is a permutation of the list. -/
theorem swapL_perm {α : Type} [Inhabited α] [DecidableEq α] (l : List α) (i j : ℕ)
    (hi : i < l.length) (hj : j < l.length) :
    List.Perm (swapL l i j) l := by
  rcases eq_or_ne i j with rfl | hne
  · have hset : l.set i (l.getD i default) = l := by
      apply List.ext_getElem (by simp)
      intro n h1 h2
      rw [List.getElem_set]
      split_ifs with hni
      · subst hni
        rw [List.getD_eq_getElem _ _ hi]
      · rfl
    rw [swapL, List.set_set, hset]
  · rw [List.perm_iff_count]
    intro b
    have hil : (if l[i] = b then 1 else 0) ≤ l.count b := by
      split_ifs with hb
      · subst hb
        exact List.count_pos_iff.mpr (List.getElem_mem hi)
      · omega
    have h1 := List.count_set (l.getD j default) b l i hi
    have h2 := List.count_set (l.getD i default) b (l.set i (l.getD j default)) j
      (by simpa using hj)
    rw [swapL, h2, h1, List.getElem_set_ne hne]
    simp only [List.getD_eq_getElem _ _ hi, List.getD_eq_getElem _ _ hj, beq_iff_eq]
    revert hil
    split_ifs <;> intro hil <;> omega

/-- Every position scanned past by `partitionAdvance` is `≥` the pivot
(`slice[0]`): the loop only advances over such entries. -/
theorem partitionAdvance_scanned {α : Type} [LinearOrder α] [Inhabited α] (l : List α)
    (i : ℕ) :
    ∀ x, i ≤ x → x < partitionAdvance l i → ¬ l.getD x default < l.getD 0 default := by
  rw [partitionAdvance]
  split_ifs with h
  · intro x hx1 hx2
    rcases eq_or_lt_of_le hx1 with rfl | hlt
    · exact h.2
    · exact partitionAdvance_scanned l (i + 1) x hlt hx2
  · intro x hx1 hx2
    omega
termination_by l.length - i
decreasing_by omega

/-- Where `partitionAdvance` stops: either past the end, or on an entry
strictly below the pivot. -/
theorem partitionAdvance_stop {α : Type} [LinearOrder α] [Inhabited α] (l : List α)
    (i : ℕ) :
    l.length ≤ partitionAdvance l i ∨
      l.getD (partitionAdvance l i) default < l.getD 0 default := by
  rw [partitionAdvance]
  split_ifs with h
  · exact partitionAdvance_stop l (i + 1)
  · rcases Nat.lt_or_ge i l.length with hi | hi
    · right
      by_contra hc
      exact h ⟨hi, hc⟩
    · left
      exact hi
termination_by l.length - i
decreasing_by omega

/-- Every position scanned past by `partitionRetreat` is `<` the pivot. -/
theorem partitionRetreat_scanned {α : Type} [LinearOrder α] [Inhabited α] (l : List α)
    (j : ℕ) :
    ∀ x, partitionRetreat l j < x → x ≤ j → l.getD x default < l.getD 0 default := by
  rw [partitionRetreat]
  split_ifs with h
  · have hj : 0 < j := by
      rcases Nat.eq_zero_or_pos j with h0 | hp
      · subst h0
        exact absurd h (lt_irrefl _)
      · exact hp
    intro x hx1 hx2
    rcases eq_or_lt_of_le hx2 with rfl | hlt
    · exact h
    · exact partitionRetreat_scanned l (j - 1) x hx1 (by omega)
  · intro x hx1 hx2
    omega
termination_by j
decreasing_by
  rcases Nat.eq_zero_or_pos j with h0 | hp
  · subst h0
    exact absurd h (lt_irrefl _)
  · omega

/-- `partitionRetreat` stops on an entry that is not below the pivot. -/
theorem partitionRetreat_stop {α : Type} [LinearOrder α] [Inhabited α] (l : List α)
    (j : ℕ) :
    ¬ l.getD (partitionRetreat l j) default < l.getD 0 default := by
  rw [partitionRetreat]
  split_ifs with h
  · exact partitionRetreat_stop l (j - 1)
  · exact h
termination_by j
decreasing_by
  rcases Nat.eq_zero_or_pos j with h0 | hp
  · subst h0
    exact absurd h (lt_irrefl _)
  · omega

/-- Main invariant proof for the `partition` loop.  With the pivot at slot 0,
if every position in `[1, i)` is already known not below the pivot and every
position in `(j, len)` is known strictly below it, the loop returns a split
point `p` and a rearrangement `out` of `l` with the pivot value at `p`,
everything before `p` not below it, and everything after strictly below it. -/
theorem partitionLoop_spec {α : Type} [LinearOrder α] [Inhabited α] (l : List α) (i j : ℕ)
    (hi : 1 ≤ i) (hjlen : j < l.length)
    (hpre : ∀ x, 1 ≤ x → x < i → ¬ l.getD x default < l.getD 0 default)
    (hpost : ∀ x, j < x → x < l.length → l.getD x default < l.getD 0 default) :
    List.Perm (partitionLoop l i j).2 l ∧
    (partitionLoop l i j).2.getD (partitionLoop l i j).1 default = l.getD 0 default ∧
    (∀ x, x < (partitionLoop l i j).1 →
      ¬ (partitionLoop l i j).2.getD x default <
        (partitionLoop l i j).2.getD (partitionLoop l i j).1 default) ∧
    (∀ x, (partitionLoop l i j).1 < x → x < l.length →
      (partitionLoop l i j).2.getD x default <
        (partitionLoop l i j).2.getD (partitionLoop l i j).1 default) := by
  have hadv := partitionAdvance_le l i
  have hret := partitionRetreat_le l j
  have hrstop := partitionRetreat_stop l j
  have h0len : 0 < l.length := by omega
  have hplen : partitionRetreat l j < l.length := by omega
  have hR1 : ∀ x, 1 ≤ x → x < partitionAdvance l i →
      ¬ l.getD x default < l.getD 0 default := by
    intro x h1 h2
    rcases Nat.lt_or_ge x i with hx | hx
    · exact hpre x h1 hx
    · exact partitionAdvance_scanned l i x hx h2
  have hR2 : ∀ x, partitionRetreat l j < x → x < l.length →
      l.getD x default < l.getD 0 default := by
    intro x h1 h2
    rcases le_or_lt x j with hx | hx
    · exact partitionRetreat_scanned l j x h1 hx
    · exact hpost x hx h2
  rw [partitionLoop]
  split_ifs with h
  · dsimp only
    refine ⟨swapL_perm l 0 (partitionRetreat l j) h0len hplen, ?_, ?_, ?_⟩
    · exact swapL_getD_snd l 0 (partitionRetreat l j) hplen
    · rw [swapL_getD_snd l 0 (partitionRetreat l j) hplen]
      intro x hx
      rcases Nat.eq_zero_or_pos x with rfl | hx1
      · rw [swapL_getD_fst l 0 (partitionRetreat l j) h0len hplen]
        exact hrstop
      · rw [swapL_getD_other l 0 (partitionRetreat l j) x (by omega) (by omega)]
        exact hR1 x hx1 (by omega)
    · rw [swapL_getD_snd l 0 (partitionRetreat l j) hplen]
      intro x hx1 hx2
      rw [swapL_getD_other l 0 (partitionRetreat l j) x (by omega) (by omega)]
      exact hR2 x hx1 hx2
  · -- the indices have not crossed: swap the out-of-place pair and recurse
    have hi1le : partitionAdvance l i ≤ partitionRetreat l j := by omega
    have hi1len : partitionAdvance l i < l.length := by omega
    have hi1pos : 1 ≤ partitionAdvance l i := le_trans hi hadv
    have hne : partitionAdvance l i ≠ partitionRetreat l j := by
      intro heq
      rcases partitionAdvance_stop l i with hs | hs
      · omega
      · rw [heq] at hs
        exact hrstop hs
    have hlen2 : (swapL l (partitionAdvance l i) (partitionRetreat l j)).length = l.length :=
      swapL_length l _ _
    have pivot0 :
        (swapL l (partitionAdvance l i) (partitionRetreat l j)).getD 0 default =
          l.getD 0 default :=
      swapL_getD_other l _ _ 0 (by omega) (by omega)
    obtain ⟨ih1, ih2, ih3, ih4⟩ :=
      partitionLoop_spec (swapL l (partitionAdvance l i) (partitionRetreat l j))
        (partitionAdvance l i + 1) (partitionRetreat l j)
        (by omega) (by omega)
        (by
          intro x h1 h2
          rw [pivot0]
          rcases Nat.lt_or_ge x (partitionAdvance l i) with hx | hx
          · rw [swapL_getD_other l _ _ x (by omega) (by omega)]
            exact hR1 x h1 hx
          · have hxeq : x = partitionAdvance l i := by omega
            subst hxeq
            rw [swapL_getD_fst l _ _ hi1len hplen]
            exact hrstop)
        (by
          intro x h1 h2
          rw [pivot0, swapL_getD_other l _ _ x (by omega) (by omega)]
          exact hR2 x h1 (by omega))
    refine ⟨ih1.trans (swapL_perm l _ _ hi1len hplen), ih2.trans pivot0, ih3, ?_⟩
    intro x hx1 hx2
    exact ih4 x hx1 (by omega)
termination_by j + 1 - i
decreasing_by
  have h1 := partitionAdvance_le l i
  have h2 := partitionRetreat_le l j
  omega

/-- `quickselect` from the source, on lists: slicing `&mut slice[0..spot]`
and `&mut slice[spot+1..len]` becomes `take`/`drop` with the untouched part
reattached, and the tail-recursive `loop` becomes recursion.  `rng t` is the
`t`-th random draw. -/
def quickselect {α : Type} [LinearOrder α] [Inhabited α]
    (rng : ℕ → ℕ) (t : ℕ) (l : List α) (find_spot : ℕ) : List α :=
  if h2 : l.length < 2 then l
  else
    if find_spot < (partition (rng t) l).1 then
      quickselect rng (t + 1) ((partition (rng t) l).2.take (partition (rng t) l).1) find_spot
        ++ (partition (rng t) l).2.drop (partition (rng t) l).1
    else if find_spot = (partition (rng t) l).1 then
      (partition (rng t) l).2
    else
      (partition (rng t) l).2.take ((partition (rng t) l).1 + 1)
        ++ quickselect rng (t + 1) ((partition (rng t) l).2.drop ((partition (rng t) l).1 + 1))
            (find_spot - (partition (rng t) l).1 - 1)
termination_by l.length
decreasing_by
  · have hs := partition_fst_lt (rng t) l (by omega)
    have hl := partition_length (rng t) l
    simp only [List.length_take]
    omega
  · have hs := partition_fst_lt (rng t) l (by omega)
    have hl := partition_length (rng t) l
    simp only [List.length_drop]
    omega

/-- Specification of `partition` on a non-empty list: the output is a
rearrangement, everything left of the returned split point is not below the
entry there, and everything right of it is strictly below it. -/
theorem partition_spec {α : Type} [LinearOrder α] [Inhabited α] (r : ℕ) (l : List α)
    (hlen : 1 ≤ l.length) :
    List.Perm (partition r l).2 l ∧
    (∀ x, x < (partition r l).1 →
      ¬ (partition r l).2.getD x default < (partition r l).2.getD (partition r l).1 default) ∧
    (∀ x, (partition r l).1 < x → x < l.length →
      (partition r l).2.getD x default < (partition r l).2.getD (partition r l).1 default) := by
  have hmod : r % l.length < l.length := Nat.mod_lt r (by omega)
  have hswlen : (swapL l 0 (r % l.length)).length = l.length := swapL_length l _ _
  obtain ⟨h1, _, h3, h4⟩ :=
    partitionLoop_spec (swapL l 0 (r % l.length)) 1
      ((swapL l 0 (r % l.length)).length - 1)
      (le_refl 1) (by omega)
      (by intro x hx1 hx2; omega)
      (by intro x hx1 hx2; omega)
  rw [partition]
  refine ⟨h1.trans (swapL_perm l 0 (r % l.length) (by omega) hmod), h3, ?_⟩
  intro x hx1 hx2
  exact h4 x hx1 (by omega)

/-- An in-range `getD` read is a member of the list. -/
theorem getD_mem {α : Type} (l : List α) (k : ℕ) (d : α) (h : k < l.length) :
    l.getD k d ∈ l := by
  rw [List.getD_eq_getElem _ _ h]
  exact List.getElem_mem h

/-- Reading `drop n l` at `y` is reading `l` at `n + y`, whenever the read
is in range. -/
theorem getD_drop {α : Type} (l : List α) (n y : ℕ) (d : α) (h : n + y < l.length) :
    (l.drop n).getD y d = l.getD (n + y) d := by
  rw [List.getD_eq_getElem?_getD, List.getD_eq_getElem?_getD, List.getElem?_drop]

/-- Reading `take n l` below `n` is reading `l` there. -/
theorem getD_take {α : Type} (l : List α) (n x : ℕ) (d : α) (h : x < n) :
    (l.take n).getD x d = l.getD x d := by
  rw [List.getD_eq_getElem?_getD, List.getD_eq_getElem?_getD, List.getElem?_take,
    if_pos h]

/-- The fully descending-sorted arrangement of a list (the claim's reference
arrangement; the source's `sort_by(|a, b| b.total_cmp(&a))` in its test). -/
def sortDesc {α : Type} [LinearOrder α] (l : List α) : List α :=
  l.insertionSort (· ≥ ·)

/-- `sortDesc` is a permutation of its input. -/
theorem sortDesc_perm {α : Type} [LinearOrder α] (l : List α) :
    List.Perm (sortDesc l) l :=
  List.perm_insertionSort _ l

/-- `sortDesc` is sorted descending. -/
theorem sortDesc_sorted {α : Type} [LinearOrder α] (l : List α) :
    List.Sorted (· ≥ ·) (sortDesc l) :=
  List.sorted_insertionSort _ l

/-- Any list that is `k`-partitioned in the descending sense (everything
before `k` at least the entry at `k`, everything after at most it) and is a
rearrangement of `l` agrees at position `k` with the descending sort of `l`. -/
theorem getD_sortDesc_of_partitioned {α : Type} [LinearOrder α] [Inhabited α]
    (l out : List α) (k : ℕ) (hperm : List.Perm out l) (hk : k < out.length)
    (hpre : ∀ x, x < k → ¬ out.getD x default < out.getD k default)
    (hpost : ∀ x, k < x → x < out.length → ¬ out.getD k default < out.getD x default) :
    (sortDesc l).getD k default = out.getD k default := by
  have htakelen : (out.take k).length = k := by
    rw [List.length_take]
    omega
  -- every element of the prefix dominates the pivot entry, and every
  -- element of the suffix is dominated by it
  have hup : ∀ a ∈ out.take k, out.getD k default ≤ a := by
    intro a ha
    obtain ⟨x, hx, rfl⟩ := List.getElem_of_mem ha
    rw [htakelen] at hx
    have := hpre x hx
    rw [List.getElem_take, ← List.getD_eq_getElem _ default (by omega)]
    exact not_lt.mp (hpre x hx)
  have hdown : ∀ b ∈ out.drop k, b ≤ out.getD k default := by
    intro b hb
    obtain ⟨y, hy, rfl⟩ := List.getElem_of_mem hb
    have hylen : k + y < out.length := by
      rw [List.length_drop] at hy
      omega
    rw [List.getElem_drop, ← List.getD_eq_getElem _ default hylen]
    rcases Nat.eq_zero_or_pos y with rfl | hpos
    · exact le_of_eq (by rw [Nat.add_zero])
    · exact not_lt.mp (hpost (k + y) (by omega) hylen)
  -- the candidate sorted arrangement: sort the two halves separately
  have hcand : sortDesc l = sortDesc (out.take k) ++ sortDesc (out.drop k) := by
    apply List.eq_of_perm_of_sorted
      ((sortDesc_perm l).trans
        (((sortDesc_perm (out.take k)).append (sortDesc_perm (out.drop k))).trans
          (by rw [List.take_append_drop]; exact hperm)).symm)
      (sortDesc_sorted l)
    show List.Pairwise _ _
    rw [List.pairwise_append]
    refine ⟨sortDesc_sorted _, sortDesc_sorted _, ?_⟩
    intro a ha b hb
    have ha2 := hup a ((sortDesc_perm (out.take k)).mem_iff.mp ha)
    have hb2 := hdown b ((sortDesc_perm (out.drop k)).mem_iff.mp hb)
    exact le_trans hb2 ha2
  have hslen : (sortDesc (out.take k)).length = k := by
    rw [sortDesc, List.length_insertionSort, htakelen]
  rw [hcand, List.getD_append_right _ _ _ k (by omega), hslen, Nat.sub_self]
  -- the head of the sorted suffix is its maximum, which is the pivot entry
  have hdroplen : 0 < (out.drop k).length := by
    rw [List.length_drop]
    omega
  have hmem : out.getD k default ∈ sortDesc (out.drop k) := by
    rw [(sortDesc_perm (out.drop k)).mem_iff]
    have : out.getD k default = (out.drop k).getD 0 default := by
      rw [getD_drop out k 0 default (by omega), Nat.add_zero]
    rw [this]
    exact getD_mem _ 0 default hdroplen
  rcases hsd : sortDesc (out.drop k) with _ | ⟨hd, tl⟩
  · rw [hsd] at hmem
    exact absurd hmem (List.not_mem_nil _)
  · have hhdmem : hd ∈ out.drop k := by
      rw [← (sortDesc_perm (out.drop k)).mem_iff, hsd]
      exact List.mem_cons_self hd tl
    have hhdle : hd ≤ out.getD k default := hdown hd hhdmem
    have hsorted := sortDesc_sorted (out.drop k)
    rw [hsd] at hsorted
    rw [hsd] at hmem
    rcases List.mem_cons.mp hmem with heq | htl
    · rw [List.getD_cons_zero, heq]
    · have : out.getD k default ≤ hd := (List.pairwise_cons.mp hsorted).1 _ htl
      rw [List.getD_cons_zero]
      exact le_antisymm hhdle this

/-- Full correctness of `quickselect`: for every random stream, the result
is a rearrangement of the input, everything strictly before `find_spot` is
not below the entry there, and everything strictly after is not above it. -/
theorem quickselect_spec {α : Type} [LinearOrder α] [Inhabited α]
    (rng : ℕ → ℕ) (t : ℕ) (l : List α) (k : ℕ) (hk : k < l.length) :
    List.Perm (quickselect rng t l k) l ∧
    (∀ x, x < k →
      ¬ (quickselect rng t l k).getD x default < (quickselect rng t l k).getD k default) ∧
    (∀ x, k < x → x < l.length →
      ¬ (quickselect rng t l k).getD k default < (quickselect rng t l k).getD x default) := by
  rw [quickselect]
  split_ifs with h2 hlt heq
  · -- lists of length < 2 are returned unchanged; only k = 0 is possible
    refine ⟨List.Perm.refl l, ?_, ?_⟩
    · intro x hx
      omega
    · intro x hx1 hx2
      omega
  · -- k < split point: recurse into the left part, reattach the right part
    have hspot := partition_fst_lt (rng t) l (by omega)
    have hplen := partition_length (rng t) l
    obtain ⟨pperm, ppre, ppost⟩ := partition_spec (rng t) l (by omega)
    have htakelen : ((partition (rng t) l).2.take (partition (rng t) l).1).length =
        (partition (rng t) l).1 := by
      rw [List.length_take]
      omega
    obtain ⟨aperm, apre, apost⟩ :=
      quickselect_spec rng (t + 1)
        ((partition (rng t) l).2.take (partition (rng t) l).1) k (by omega)
    have halen :
        (quickselect rng (t + 1)
          ((partition (rng t) l).2.take (partition (rng t) l).1) k).length =
        (partition (rng t) l).1 :=
      aperm.length_eq.trans htakelen
    have hdk : ∀ x, x < (partition (rng t) l).1 →
        (quickselect rng (t + 1)
            ((partition (rng t) l).2.take (partition (rng t) l).1) k ++
          (partition (rng t) l).2.drop (partition (rng t) l).1).getD x default =
        (quickselect rng (t + 1)
          ((partition (rng t) l).2.take (partition (rng t) l).1) k).getD x default := by
      intro x hx
      exact List.getD_append _ _ _ x (by omega)
    refine ⟨?_, ?_, ?_⟩
    · refine ((aperm.append (List.Perm.refl _)).trans ?_).trans pperm
      rw [List.take_append_drop]
    · intro x hx
      rw [hdk x (by omega), hdk k (by omega)]
      exact apre x hx
    · intro x hx1 hx2
      rw [hdk k (by omega)]
      rcases Nat.lt_or_ge x (partition (rng t) l).1 with hxs | hxs
      · rw [hdk x hxs]
        exact apost x hx1 (by omega)
      · -- the read lands in the reattached right part
        have hx2l : x < (partition (rng t) l).2.length := by omega
        have hread :
            ((quickselect rng (t + 1)
                ((partition (rng t) l).2.take (partition (rng t) l).1) k) ++
              (partition (rng t) l).2.drop (partition (rng t) l).1).getD x default =
            (partition (rng t) l).2.getD x default := by
          rw [List.getD_append_right _ _ _ x (by omega), halen,
            getD_drop _ _ _ _ (by omega)]
          congr 1
          omega
        rw [hread]
        have hmem : (quickselect rng (t + 1)
            ((partition (rng t) l).2.take (partition (rng t) l).1) k).getD k default ∈
            (partition (rng t) l).2.take (partition (rng t) l).1 :=
          aperm.mem_iff.mp (getD_mem _ k default (by omega))
        obtain ⟨y, hy, hyeq⟩ := List.getElem_of_mem hmem
        rw [htakelen] at hy
        rw [List.getElem_take] at hyeq
        rw [← List.getD_eq_getElem _ default (by omega)] at hyeq
        have hyp : ¬ (partition (rng t) l).2.getD y default <
            (partition (rng t) l).2.getD (partition (rng t) l).1 default := ppre y hy
        have hxp : (partition (rng t) l).2.getD x default ≤
            (partition (rng t) l).2.getD (partition (rng t) l).1 default := by
          rcases Nat.eq_or_lt_of_le hxs with hxe | hxl
          · rw [← hxe]
          · exact le_of_lt (ppost x hxl (by omega))
        rw [← hyeq]
        exact not_lt.mpr (le_trans hxp (not_lt.mp hyp))
  · -- k equals the split point: the partitioned list is already the answer
    have hspot := partition_fst_lt (rng t) l (by omega)
    have hplen := partition_length (rng t) l
    obtain ⟨pperm, ppre, ppost⟩ := partition_spec (rng t) l (by omega)
    subst heq
    refine ⟨pperm, ppre, ?_⟩
    intro x hx1 hx2
    exact lt_asymm (ppost x hx1 hx2)
  · -- split point < k: recurse into the right part, reattach the left part
    have hspot := partition_fst_lt (rng t) l (by omega)
    have hplen := partition_length (rng t) l
    obtain ⟨pperm, ppre, ppost⟩ := partition_spec (rng t) l (by omega)
    have hkgt : (partition (rng t) l).1 < k := by omega
    have hdroplen : ((partition (rng t) l).2.drop ((partition (rng t) l).1 + 1)).length =
        l.length - (partition (rng t) l).1 - 1 := by
      rw [List.length_drop]
      omega
    obtain ⟨bperm, bpre, bpost⟩ :=
      quickselect_spec rng (t + 1)
        ((partition (rng t) l).2.drop ((partition (rng t) l).1 + 1))
        (k - (partition (rng t) l).1 - 1) (by omega)
    have hblen :
        (quickselect rng (t + 1)
          ((partition (rng t) l).2.drop ((partition (rng t) l).1 + 1))
          (k - (partition (rng t) l).1 - 1)).length =
        l.length - (partition (rng t) l).1 - 1 :=
      bperm.length_eq.trans hdroplen
    have htklen : ((partition (rng t) l).2.take ((partition (rng t) l).1 + 1)).length =
        (partition (rng t) l).1 + 1 := by
      rw [List.length_take]
      omega
    have hleft : ∀ x, x ≤ (partition (rng t) l).1 →
        ((partition (rng t) l).2.take ((partition (rng t) l).1 + 1) ++
          quickselect rng (t + 1)
            ((partition (rng t) l).2.drop ((partition (rng t) l).1 + 1))
            (k - (partition (rng t) l).1 - 1)).getD x default =
        (partition (rng t) l).2.getD x default := by
      intro x hx
      rw [List.getD_append _ _ _ x (by omega), getD_take _ _ _ _ (by omega)]
    have hright : ∀ x, (partition (rng t) l).1 < x →
        ((partition (rng t) l).2.take ((partition (rng t) l).1 + 1) ++
          quickselect rng (t + 1)
            ((partition (rng t) l).2.drop ((partition (rng t) l).1 + 1))
            (k - (partition (rng t) l).1 - 1)).getD x default =
        (quickselect rng (t + 1)
          ((partition (rng t) l).2.drop ((partition (rng t) l).1 + 1))
          (k - (partition (rng t) l).1 - 1)).getD
            (x - (partition (rng t) l).1 - 1) default := by
      intro x hx
      rw [List.getD_append_right _ _ _ x (by omega), htklen]
      have hsub : x - ((partition (rng t) l).1 + 1) = x - (partition (rng t) l).1 - 1 := by
        omega
      rw [hsub]
    refine ⟨?_, ?_, ?_⟩
    · refine (((List.Perm.refl _).append bperm).trans ?_).trans pperm
      rw [List.take_append_drop]
    · intro x hx
      rw [hright k hkgt]
      rcases Nat.lt_or_ge x ((partition (rng t) l).1 + 1) with hxs | hxs
      · -- the read lands in the reattached left part
        rw [hleft x (by omega)]
        have hmem : (quickselect rng (t + 1)
            ((partition (rng t) l).2.drop ((partition (rng t) l).1 + 1))
            (k - (partition (rng t) l).1 - 1)).getD
              (k - (partition (rng t) l).1 - 1) default ∈
            (partition (rng t) l).2.drop ((partition (rng t) l).1 + 1) :=
          bperm.mem_iff.mp (getD_mem _ _ default (by omega))
        obtain ⟨y, hy, hyeq⟩ := List.getElem_of_mem hmem
        rw [hdroplen] at hy
        have hylen : (partition (rng t) l).1 + 1 + y < (partition (rng t) l).2.length := by
          omega
        rw [List.getElem_drop, ← List.getD_eq_getElem _ default hylen] at hyeq
        have hbelow : (partition (rng t) l).2.getD ((partition (rng t) l).1 + 1 + y)
            default < (partition (rng t) l).2.getD (partition (rng t) l).1 default :=
          ppost _ (by omega) (by omega)
        have habove : (partition (rng t) l).2.getD (partition (rng t) l).1 default ≤
            (partition (rng t) l).2.getD x default := by
          rcases Nat.eq_or_lt_of_le (Nat.le_of_lt_succ hxs) with hxe | hxl
          · rw [hxe]
          · exact not_lt.mp (ppre x hxl)
        rw [← hyeq]
        exact not_lt.mpr (le_of_lt (lt_of_lt_of_le hbelow habove))
      · -- both reads land in the recursive part
        rw [hright x (by omega)]
        exact bpre (x - (partition (rng t) l).1 - 1) (by omega)
    · intro x hx1 hx2
      rw [hright k hkgt, hright x (by omega)]
      exact bpost (x - (partition (rng t) l).1 - 1) (by omega) (by omega)
termination_by l.length
decreasing_by
  all_goals
    have hs := partition_fst_lt (rng t) l (by omega)
    have hl := partition_length (rng t) l
    simp only [List.length_take, List.length_drop]
    omega

/-- C7: after `quickselect(v, by, k)` with `k < n` (the comparison defining
the descending arrangement being the total order of the elements, as
`f64::total_cmp` is for the exact rationals standing in for `f64`), for
every random pivot stream: the result is a permutation of the input, every
entry before position `k` is at least the entry at `k`, every entry after
it is at most the entry at `k`, and the entry at `k` equals the `k`-th entry
of the fully descending-sorted input. -/
theorem C7_quickselect_postcondition {α : Type} [LinearOrder α] [Inhabited α]
    (rng : ℕ → ℕ) (t : ℕ) (l : List α) (k : ℕ) (hk : k < l.length) :
    List.Perm (quickselect rng t l k) l ∧
    (∀ x, x < k →
      (quickselect rng t l k).getD k default ≤ (quickselect rng t l k).getD x default) ∧
    (∀ x, k < x → x < l.length →
      (quickselect rng t l k).getD x default ≤ (quickselect rng t l k).getD k default) ∧
    (quickselect rng t l k).getD k default = (sortDesc l).getD k default := by
  obtain ⟨hperm, hpre, hpost⟩ := quickselect_spec rng t l k hk
  refine ⟨hperm, fun x hx => not_lt.mp (hpre x hx),
    fun x hx1 hx2 => not_lt.mp (hpost x hx1 hx2), ?_⟩
  have hklen : k < (quickselect rng t l k).length := by
    rw [hperm.length_eq]
    exact hk
  exact (getD_sortDesc_of_partitioned l (quickselect rng t l k) k hperm hklen hpre
    (fun x hx1 hx2 => hpost x hx1 (by rw [← hperm.length_eq]; exact hx2))).symm

/-- C7 witness: the postcondition instantiated on `[5, 3, 4]` with `k = 1`
and the constant pivot stream. -/
theorem C7_quickselect_postcondition_witness :
    (1 < ([5, 3, 4] : List ℚ).length) ∧
    (List.Perm (quickselect (fun _ => 0) 0 ([5, 3, 4] : List ℚ) 1) [5, 3, 4] ∧
    (∀ x, x < 1 →
      (quickselect (fun _ => 0) 0 ([5, 3, 4] : List ℚ) 1).getD 1 default ≤
        (quickselect (fun _ => 0) 0 ([5, 3, 4] : List ℚ) 1).getD x default) ∧
    (∀ x, 1 < x → x < ([5, 3, 4] : List ℚ).length →
      (quickselect (fun _ => 0) 0 ([5, 3, 4] : List ℚ) 1).getD x default ≤
        (quickselect (fun _ => 0) 0 ([5, 3, 4] : List ℚ) 1).getD 1 default) ∧
    (quickselect (fun _ => 0) 0 ([5, 3, 4] : List ℚ) 1).getD 1 default =
      (sortDesc ([5, 3, 4] : List ℚ)).getD 1 default) :=
  ⟨by decide, C7_quickselect_postcondition (fun _ => 0) 0 [5, 3, 4] 1 (by decide)⟩

/-!
Color-density estimation, from `src/qvis/src/inference.rs` and the
`CVProcessor` wrapper in `src/qvis/src/lib.rs`.  Interned color strings
(`ArcIntern<str>`) are modelled as naturals compared by identity; images are
lists of exact-rational RGB triples; the external kiddo `KdTree<f64, 3>` is
modelled as the list of its inserted points, with `nearest_n::<SquaredEuclidean>`
returning the `n` smallest squared distances (on an empty tree it returns
nothing, so `nn.last().unwrap()` panics, modelled as `none`).  `HashMap`s
keyed by color are modelled as association lists in the fixed `colors`
order.  The single random generator threaded through `infer` is modelled by
giving every `quickselect` call site its own arbitrary draw stream.
-/

/-- A color tag (an interned string, compared by identity). -/
abbrev Color : Type := ℕ

/-- An RGB sample in `[0,1]³`. -/
abbrev RGB : Type := ℚ × ℚ × ℚ

/-- `enum Pixel` from `lib.rs`: how one image pixel is assigned. -/
inductive Pixel where
  | unassigned : Pixel
  | whiteBalance : Color → Pixel
  | sticker : ℕ → Pixel
deriving DecidableEq

/-- `CONFIDENCE_PERCENTILE = 0.2`. -/
def CONFIDENCE_PERCENTILE : ℚ := 1 / 5

/-- `MAX_NEAREST_N = 10`. -/
def MAX_NEAREST_N : ℕ := 10

/-- `MAX_FRACTION = 8`. -/
def MAX_FRACTION : ℕ := 8

/-- The `f64` value of `π` as an exact rational. -/
def ratPi : ℚ := 884279719003555 / 281474976710656

/-- `UNIT_SPHERE = 4/3 · π` (idealized as exact rational arithmetic). -/
def UNIT_SPHERE : ℚ := 4 / 3 * ratPi

/-- Squared Euclidean distance on RGB triples. -/
def sqDist (p q : RGB) : ℚ :=
  (p.1 - q.1) ^ 2 + (p.2.1 - q.2.1) ^ 2 + (p.2.2 - q.2.2) ^ 2

/-- Model of kiddo's `nearest_n::<SquaredEuclidean>`: the `n` smallest
squared distances from `q` to the tree's points, ascending (only the
distances are consumed by the source).  Empty tree: empty result. -/
def nearest_n (tree : List RGB) (q : RGB) (n : ℕ) : List ℚ :=
  ((tree.map fun p => sqDist p q).insertionSort (· ≤ ·)).take n

/-- The per-pixel per-color density from `Inference::infer`:
`n = max(1, min(MAX_NEAREST_N, N / MAX_FRACTION))`, query the `n` nearest
neighbors, and compute `(n / N) · (d³ · UNIT_SPHERE)⁻¹` where `d` is the
last returned (squared) distance.  On an empty index the neighbor list is
empty and `nn.last().unwrap()` panics: `none`.  (The rational `x⁻¹` at
`x = 0` differs from `f64` infinity; no claim depends on that value.) -/
def densityOpt (tree : List RGB) (q : RGB) : Option ℚ :=
  let n := Nat.max (Nat.min MAX_NEAREST_N (tree.length / MAX_FRACTION)) 1
  match (nearest_n tree q n).getLast? with
  | none => none
  | some dist => some ((n : ℚ) / (tree.length : ℚ) * (dist ^ 3 * UNIT_SPHERE)⁻¹)

/-- `struct Pixel` from `inference.rs`: an image position together with one
spatial index per color. -/
structure InfPixel where
  idx : ℕ
  kdtrees : List (Color × List RGB)
deriving DecidableEq

/-- `struct Inference`: per-sticker pixel lists plus the group data it
reads (`facelet_colors`; `facelet_count` is its length) and the distinct
color list. -/
structure Inference where
  pixels_by_sticker : List (List InfPixel)
  facelet_colors : List Color
  colors : List Color
deriving DecidableEq

/-- itertools' `unique()`: first occurrences, order preserved. -/
def uniqueFirst : List Color → List Color
  | [] => []
  | c :: rest => c :: uniqueFirst (rest.filter fun x => x ≠ c)
termination_by l => l.length
decreasing_by
  calc (rest.filter fun x => x ≠ c).length ≤ rest.length := List.length_filter_le _ _
    _ < (c :: rest).length := by simp

/-- The assignment-scanning loop of `Inference::new`: walk the pixels in
index order, pushing each `Sticker(s)` pixel (with one empty spatial index
per color) onto `pixels_by_sticker[s]`; an out-of-range `s` panics at the
indexing (`none`), exactly where the source's `pixels_by_sticker[sticker]`
would. -/
def newLoop (faceletCount : ℕ) (emptyTrees : List (Color × List RGB)) :
    ℕ → List Pixel → List (List InfPixel) → Option (List (List InfPixel))
  | _, [], pbs => some pbs
  | idx, px :: rest, pbs =>
    match px with
    | .sticker s =>
      if s < faceletCount then
        newLoop faceletCount emptyTrees (idx + 1) rest
          (modifyAt pbs s fun v => v ++ [{ idx := idx, kdtrees := emptyTrees }])
      else none
    | _ => newLoop faceletCount emptyTrees (idx + 1) rest pbs

/-- `Inference::new`.  `facelet_colors` stands for the group's facelet
colors; the facelet count is its length. -/
def inference_new (assignment : List Pixel) (facelet_colors : List Color) :
    Option Inference :=
  (newLoop facelet_colors.length
      ((uniqueFirst facelet_colors).map fun c => (c, ([] : List RGB)))
      0 assignment (List.replicate facelet_colors.length [])).map
    fun pbs =>
      { pixels_by_sticker := pbs, facelet_colors := facelet_colors,
        colors := uniqueFirst facelet_colors }

/-- Append a sample to the spatial index keyed `c`; a missing key is the
source's `kdtrees.get_mut(color).unwrap()` panic. -/
def addToTree (kdtrees : List (Color × List RGB)) (c : Color) (p : RGB) :
    Option (List (Color × List RGB)) :=
  if (kdtrees.lookup c).isSome then
    some (kdtrees.map fun kv => if kv.1 = c then (kv.1, kv.2 ++ [p]) else kv)
  else none

/-- Calibrate all pixels of one sticker with the given ground-truth color. -/
def calibratePixels (image : List RGB) (color : Color) :
    List InfPixel → Option (List InfPixel)
  | [] => some []
  | px :: rest =>
    match addToTree px.kdtrees color (image.getD px.idx (0, 0, 0)) with
    | none => none
    | some kt => (calibratePixels image color rest).map fun r => { px with kdtrees := kt } :: r

/-- The sticker loop of `Inference::calibrate`: sticker `s` is calibrated
with color `facelet_colors[state.comes_from().get(s)]` (the permutation's
`comes_from` image is the function `state`). -/
def calibrateLoop (facelet_colors : List Color) (image : List RGB) (state : ℕ → ℕ) :
    ℕ → List (List InfPixel) → Option (List (List InfPixel))
  | _, [] => some []
  | s, pixels :: rest =>
    match calibratePixels image (facelet_colors.getD (state s) 0) pixels with
    | none => none
    | some pixels2 => (calibrateLoop facelet_colors image state (s + 1) rest).map (pixels2 :: ·)

/-- `Inference::calibrate`. -/
def inference_calibrate (inf : Inference) (image : List RGB) (state : ℕ → ℕ) :
    Option Inference :=
  (calibrateLoop inf.facelet_colors image state 0 inf.pixels_by_sticker).map
    fun pbs => { inf with pixels_by_sticker := pbs }

/-- The inner loop of `Inference::infer` for one pixel: push, for every
color, the pixel's density into the per-color buffer `acc`
(`confidences_by_pixel`); an empty index for any color panics (`none`), and
a buffer missing the color is the source's `get_mut(color).unwrap()` panic. -/
def pushDensities (picture : List RGB) (px : InfPixel) :
    List (Color × List RGB) → List (Color × List ℚ) → Option (List (Color × List ℚ))
  | [], acc => some acc
  | (c, tree) :: rest, acc =>
    match densityOpt tree (picture.getD px.idx (0, 0, 0)) with
    | none => none
    | some d =>
      if (acc.lookup c).isSome then
        pushDensities picture px rest
          (acc.map fun kv => if kv.1 = c then (kv.1, kv.2 ++ [d]) else kv)
      else none

/-- Fold `pushDensities` over the pixels of one sticker. -/
def stickerDensities (picture : List RGB) :
    List InfPixel → List (Color × List ℚ) → Option (List (Color × List ℚ))
  | [], acc => some acc
  | px :: rest, acc =>
    match pushDensities picture px px.kdtrees acc with
    | none => none
    | some acc2 => stickerDensities picture rest acc2

/-- Per-color aggregation of `Inference::infer`: an empty buffer yields 0;
otherwise place index `⌊0.2·len⌋` by `quickselect` and read it. -/
def confidenceFor (rng : ℕ → ℕ) (v : List ℚ) : ℚ :=
  if v = [] then 0
  else
    let n := (CONFIDENCE_PERCENTILE * (v.length : ℚ)).floor.toNat
    (quickselect rng 0 v n).getD n default

/-- The sticker loop of `Inference::infer`.  `rngs s i` is the draw stream
for the `quickselect` call of sticker `s` and color slot `i` (the source
threads one generator through all calls; every execution of it is one
choice of these streams). -/
def inferLoop (inf : Inference) (picture : List RGB) (rngs : ℕ → ℕ → ℕ → ℕ) :
    ℕ → List (List InfPixel) → Option (List (List (Color × ℚ)))
  | _, [] => some []
  | s, pixels :: rest =>
    match stickerDensities picture pixels (inf.colors.map fun c => (c, [])) with
    | none => none
    | some acc =>
      (inferLoop inf picture rngs (s + 1) rest).map
        ((acc.enum.map fun iv => (iv.2.1, confidenceFor (rngs s iv.1) iv.2.2)) :: ·)

/-- `Inference::infer`. -/
def infer (inf : Inference) (picture : List RGB) (rngs : ℕ → ℕ → ℕ → ℕ) :
    Option (List (List (Color × ℚ))) :=
  inferLoop inf picture rngs 0 inf.pixels_by_sticker

/-- `CVProcessor` (`lib.rs`): the stored image size and the inference state
(the matcher half is embedded separately with the puzzle-matching code). -/
structure CVProcessor where
  image_size : ℕ
  inference : Inference
deriving DecidableEq

/-- `CVProcessor::new`: note that it performs no check at all relating
`assignment.len()` to `image_size`; only `Inference::new` can fail, on an
out-of-range sticker index. -/
def cv_new (facelet_colors : List Color) (image_size : ℕ) (assignment : List Pixel) :
    Option CVProcessor :=
  (inference_new assignment facelet_colors).map
    fun inf => { image_size := image_size, inference := inf }

/-- `CVProcessor::calibrate`: the `assert_eq!(self.image_size, image.len())`
runs before anything touches the inference state. -/
def cv_calibrate (cv : CVProcessor) (image : List RGB) (state : ℕ → ℕ) :
    Option CVProcessor :=
  if cv.image_size ≠ image.length then none
  else (inference_calibrate cv.inference image state).map
    fun inf => { cv with inference := inf }

/-- C4 counterexample: `CVProcessor::new` with an assignment of length 1 and
`image_size = 2` (a length mismatch) succeeds: no check relates the two, so
construction does not fail as the claim states. -/
theorem C4_new_accepts_length_mismatch :
    (cv_new [7] 2 [Pixel.sticker 0]).isSome = true ∧
    ([Pixel.sticker 0] : List Pixel).length ≠ 2 := by
  exact ⟨by rfl, by decide⟩

/-- Scanning an assignment holding an out-of-range sticker always panics. -/
theorem newLoop_oob {s : ℕ} (faceletCount : ℕ) (et : List (Color × List RGB)) :
    ∀ (idx : ℕ) (A : List Pixel) (pbs : List (List InfPixel)),
      Pixel.sticker s ∈ A → faceletCount ≤ s →
      newLoop faceletCount et idx A pbs = none := by
  intro idx A
  induction A generalizing idx with
  | nil =>
    intro pbs hmem
    exact absurd hmem (List.not_mem_nil _)
  | cons px rest ih =>
    intro pbs hmem hle
    rcases List.mem_cons.mp hmem with rfl | hmem2
    · rw [newLoop, if_neg (by omega)]
    · cases px with
      | sticker s2 =>
        rw [newLoop]
        split_ifs with h
        · exact ih _ _ hmem2 hle
        · rfl
      | unassigned => exact ih _ _ hmem2 hle
      | whiteBalance c0 => exact ih _ _ hmem2 hle

/-- C4 (amended): `CVProcessor::new` performs no assignment-length check at
all (a mismatched length is accepted, see the counterexample); construction
fails — and then no processor exists, so nothing is retained — exactly when
the assignment holds a `Sticker(s)` with `s ≥ F`; and `calibrate` with an
image whose length differs from `image_size` fails at its leading
`assert_eq!`, before any spatial index is touched. -/
theorem C4_failure_modes :
    (∀ (fc : List Color) (isz : ℕ) (A : List Pixel) (s : ℕ),
      Pixel.sticker s ∈ A → fc.length ≤ s → cv_new fc isz A = none) ∧
    (∀ (cv : CVProcessor) (image : List RGB) (state : ℕ → ℕ),
      cv.image_size ≠ image.length → cv_calibrate cv image state = none) := by
  constructor
  · intro fc isz A s hmem hle
    rw [cv_new, inference_new, newLoop_oob fc.length _ 0 A _ hmem hle]
    rfl
  · intro cv image state h
    rw [cv_calibrate, if_pos h]

/-- C4 witness: a one-facelet puzzle rejects `Sticker(5)`, and a processor
with `image_size = 1` rejects an empty calibration image. -/
theorem C4_failure_modes_witness :
    (Pixel.sticker 5 ∈ ([Pixel.sticker 5] : List Pixel) ∧
      ([7] : List Color).length ≤ 5 ∧ cv_new [7] 1 [Pixel.sticker 5] = none) ∧
    (({ image_size := 1,
        inference :=
          { pixels_by_sticker := [[]], facelet_colors := [7],
            colors := [7] } } : CVProcessor).image_size ≠ ([] : List RGB).length ∧
      cv_calibrate
        { image_size := 1,
          inference :=
            { pixels_by_sticker := [[]], facelet_colors := [7], colors := [7] } }
        [] (fun x => x) = none) :=
  ⟨⟨by decide, by decide, C4_failure_modes.1 [7] 1 [Pixel.sticker 5] 5 (by decide) (by decide)⟩,
    ⟨by decide, C4_failure_modes.2 _ [] (fun x => x) (by decide)⟩⟩

/-- The density of an uncalibrated (empty) index is a panic, not a value. -/
theorem densityOpt_nil (q : RGB) : densityOpt [] q = none := rfl

/-- The uncalibrated single-sticker, single-pixel inference state. -/
def infEmpty : Inference :=
  { pixels_by_sticker := [[{ idx := 0, kdtrees := [(7, [])] }]],
    facelet_colors := [7], colors := [7] }

/-- C5 counterexample: with an empty spatial index (`N = 0`), `infer` does
not treat the density as 0 — it fails (the `nn.last().unwrap()` panic),
producing no result at all, rather than the map with confidence 0 that the
claim's reading would give. -/
theorem C5_empty_index_panics :
    infer infEmpty [(0, 0, 0)] (fun _ _ _ => 0) = none ∧
    infer infEmpty [(0, 0, 0)] (fun _ _ _ => 0) ≠ some [[(7, 0)]] := by
  refine ⟨by rfl, ?_⟩
  intro h
  rw [show infer infEmpty [(0, 0, 0)] (fun _ _ _ => 0) = none from rfl] at h
  cases h

/-- If some scanned per-color index is empty, the density push panics. -/
theorem pushDensities_empty_tree (picture : List RGB) (px : InfPixel) (c : Color) :
    ∀ (kts : List (Color × List RGB)) (acc : List (Color × List ℚ)),
      (c, ([] : List RGB)) ∈ kts → pushDensities picture px kts acc = none := by
  intro kts
  induction kts with
  | nil =>
    intro acc hmem
    exact absurd hmem (List.not_mem_nil _)
  | cons kv rest ih =>
    intro acc hmem
    rcases List.mem_cons.mp hmem with rfl | hmem2
    · rw [pushDensities, densityOpt_nil]
    · obtain ⟨c0, tree0⟩ := kv
      rw [pushDensities]
      cases densityOpt tree0 (picture.getD px.idx (0, 0, 0)) with
      | none => rfl
      | some d =>
        split_ifs with h
        · exact ih _ hmem2
        · rfl

/-- If some pixel of the sticker has an empty per-color index, the density
gathering for that sticker panics. -/
theorem stickerDensities_empty_tree (picture : List RGB) (px : InfPixel) (c : Color)
    (hc : (c, ([] : List RGB)) ∈ px.kdtrees) :
    ∀ (pixels : List InfPixel) (acc : List (Color × List ℚ)),
      px ∈ pixels → stickerDensities picture pixels acc = none := by
  intro pixels
  induction pixels with
  | nil =>
    intro acc hmem
    exact absurd hmem (List.not_mem_nil _)
  | cons px0 rest ih =>
    intro acc hmem
    rcases List.mem_cons.mp hmem with rfl | hmem2
    · rw [stickerDensities, pushDensities_empty_tree picture px c _ _ hc]
    · rw [stickerDensities]
      cases hpd : pushDensities picture px0 px0.kdtrees acc with
      | none => rfl
      | some acc2 => exact ih _ hmem2

/-- The sticker loop of `infer` panics when any listed sticker holds a
pixel with an empty per-color index. -/
theorem inferLoop_empty_tree (inf : Inference) (picture : List RGB)
    (rngs : ℕ → ℕ → ℕ → ℕ) (pixels : List InfPixel) (px : InfPixel) (c : Color)
    (hpx : px ∈ pixels) (hc : (c, ([] : List RGB)) ∈ px.kdtrees) :
    ∀ (s0 : ℕ) (pbs : List (List InfPixel)), pixels ∈ pbs →
      inferLoop inf picture rngs s0 pbs = none := by
  intro s0 pbs
  induction pbs generalizing s0 with
  | nil =>
    intro h
    exact absurd h (List.not_mem_nil _)
  | cons pixels0 rest ih =>
    intro hmem
    rcases List.mem_cons.mp hmem with rfl | hmem2
    · rw [inferLoop, stickerDensities_empty_tree picture px c hc _ _ hpx]
    · rw [inferLoop]
      rcases hsd : stickerDensities picture pixels0 (inf.colors.map fun c0 => (c0, [])) with
        _ | acc
      · rfl
      · rw [ih (s0 + 1) hmem2]
        rfl

/-- C5 (amended): whenever any pixel of any sticker has an empty spatial
index for some color (`N = 0`), `infer` fails — the per-pixel density
computation panics at `nn.last().unwrap()` on the empty neighbor list —
instead of treating that density as 0. -/
theorem C5_empty_index_not_total (inf : Inference) (picture : List RGB)
    (rngs : ℕ → ℕ → ℕ → ℕ) (pixels : List InfPixel) (px : InfPixel) (c : Color)
    (hs : pixels ∈ inf.pixels_by_sticker) (hpx : px ∈ pixels)
    (hc : (c, ([] : List RGB)) ∈ px.kdtrees) :
    infer inf picture rngs = none := by
  rw [infer]
  exact inferLoop_empty_tree inf picture rngs pixels px c hpx hc 0 _ hs

/-- C5 witness: the amended statement applied to the uncalibrated
single-sticker state. -/
theorem C5_empty_index_not_total_witness :
    ([{ idx := 0, kdtrees := [(7, [])] }] ∈ infEmpty.pixels_by_sticker ∧
      ({ idx := 0, kdtrees := [(7, [])] } : InfPixel) ∈
        [({ idx := 0, kdtrees := [(7, [])] } : InfPixel)] ∧
      ((7 : Color), ([] : List RGB)) ∈
        ({ idx := 0, kdtrees := [(7, [])] } : InfPixel).kdtrees) ∧
    infer infEmpty [(0, 0, 0)] (fun _ _ _ => 0) = none :=
  ⟨⟨by decide, by decide, by decide⟩,
    C5_empty_index_not_total infEmpty [(0, 0, 0)] (fun _ _ _ => 0)
      [{ idx := 0, kdtrees := [(7, [])] }] { idx := 0, kdtrees := [(7, [])] } 7
      (by decide) (by decide) (by decide)⟩

/-- The assignment scan treats a `WhiteBalance` pixel exactly like an
`Unassigned` one: both fall through the `let else continue`. -/
theorem newLoop_whiteBalance_unassigned (faceletCount : ℕ)
    (et : List (Color × List RGB)) (c : Color) :
    ∀ (A : List Pixel) (p idx : ℕ) (pbs : List (List InfPixel)),
      newLoop faceletCount et idx (A.set p (Pixel.whiteBalance c)) pbs =
        newLoop faceletCount et idx (A.set p Pixel.unassigned) pbs := by
  intro A
  induction A with
  | nil =>
    intro p idx pbs
    rfl
  | cons px rest ih =>
    intro p idx pbs
    cases p with
    | zero => rfl
    | succ q =>
      rw [List.set_cons_succ, List.set_cons_succ]
      cases px with
      | sticker s =>
        rw [newLoop, newLoop]
        split_ifs with h
        · exact ih q (idx + 1) _
        · rfl
      | unassigned => exact ih q (idx + 1) pbs
      | whiteBalance c0 => exact ih q (idx + 1) pbs

/-- C8: a pixel marked `WhiteBalance(c)` contributes nothing: the inference
state built from an assignment with `WhiteBalance(c)` at any position equals
the one built with `Unassigned` there, and therefore every `calibrate` and
`infer` result coincides as well. -/
theorem C8_whiteBalance_like_unassigned (A : List Pixel) (p : ℕ) (c : Color)
    (fc : List Color) :
    inference_new (A.set p (Pixel.whiteBalance c)) fc =
      inference_new (A.set p Pixel.unassigned) fc ∧
    (∀ (picture : List RGB) (rngs : ℕ → ℕ → ℕ → ℕ),
      (inference_new (A.set p (Pixel.whiteBalance c)) fc).map
          (fun inf => infer inf picture rngs) =
        (inference_new (A.set p Pixel.unassigned) fc).map
          (fun inf => infer inf picture rngs)) ∧
    (∀ (image : List RGB) (state : ℕ → ℕ),
      (inference_new (A.set p (Pixel.whiteBalance c)) fc).map
          (fun inf => inference_calibrate inf image state) =
        (inference_new (A.set p Pixel.unassigned) fc).map
          (fun inf => inference_calibrate inf image state)) := by
  have hmain : inference_new (A.set p (Pixel.whiteBalance c)) fc =
      inference_new (A.set p Pixel.unassigned) fc := by
    rw [inference_new, inference_new, newLoop_whiteBalance_unassigned]
  exact ⟨hmain, fun picture rngs => by rw [hmain], fun image state => by rw [hmain]⟩

/-!
Puzzle matching, from `src/qvis/src/puzzle_matching/mod.rs`.  `ndarray`
tensors are nested lists; orbit data (pieces with their sticker lists,
orientation counts, orientation numbers) and the `sticker_color_piece` map
built by `OrbitMatcher::new` are taken as inputs, the external puzzle-theory
collaborator being out of the embedded core.  Permutations are carried as
their cycle lists (`Permutation::from_cycles`/`cycles` become the identity
on that representation), which is all the composer manipulates.
-/

/-- A piece of an orbit: its ordered sticker list. -/
structure PieceModel where
  stickers : List ℕ
deriving DecidableEq

/-- `OrbitData` as consumed by the matcher: pieces and orientation count. -/
structure OrbitModel where
  pieces : List PieceModel
  orientation_count : ℕ
deriving DecidableEq

/-- The `sticker_color_piece` map: `(orientation number, color)` to the
consistent `(piece, orientation)` pairs. -/
abbrev SCPMap : Type := List ((ℕ × Color) × List (ℕ × ℕ))

/-- Add `v` into `row[i][j]`. -/
def addAt2 (row : List (List ℚ)) (i j : ℕ) (v : ℚ) : List (List ℚ) :=
  modifyAt row i fun r => modifyAt r j (· + v)

/-- `for (piece, ori) in pieces { cost_row[[piece, ori]] += log_likelihood }`. -/
def applyPairs (row : List (List ℚ)) (pairs : List (ℕ × ℕ)) (ll : ℚ) : List (List ℚ) :=
  pairs.foldl (fun r pr => addAt2 r pr.1 pr.2 ll) row

/-- The per-sticker color loop of the cost build: each `(color, ll)` entry
looks its key up in `sticker_color_piece` and `unwrap`s — a missing key
panics (`none`), it is not skipped. -/
def applyLLs (scp : SCPMap) (ori_num : ℕ) :
    List (Color × ℚ) → List (List ℚ) → Option (List (List ℚ))
  | [], row => some row
  | (color, ll) :: rest, row =>
    match scp.lookup (ori_num, color) with
    | none => none
    | some pairs => applyLLs scp ori_num rest (applyPairs row pairs ll)

/-- The sticker loop of the cost build for one piece-position. -/
def applyStickers (ori_nums : List ℕ) (scp : SCPMap) (lls : List (List (Color × ℚ))) :
    List ℕ → List (List ℚ) → Option (List (List ℚ))
  | [], row => some row
  | sticker :: rest, row =>
    match applyLLs scp (ori_nums.getD sticker 0) (lls.getD sticker []) row with
    | none => none
    | some row2 => applyStickers ori_nums scp lls rest row2

/-- The piece-position loop building the 3-D cost tensor of
`OrbitMatcher::most_likely_matchings` (each row starts all-zero). -/
def buildRows (orbit : OrbitModel) (ori_nums : List ℕ) (scp : SCPMap)
    (lls : List (List (Color × ℚ))) : List PieceModel → Option (List (List (List ℚ)))
  | [] => some []
  | piece :: rest =>
    match applyStickers ori_nums scp lls piece.stickers
        (List.replicate orbit.pieces.length
          (List.replicate orbit.orientation_count 0)) with
    | none => none
    | some row => (buildRows orbit ori_nums scp lls rest).map (row :: ·)

/-- The cost tensor of `most_likely_matchings` for one orbit. -/
def buildCostMatrix (orbit : OrbitModel) (ori_nums : List ℕ) (scp : SCPMap)
    (lls : List (List (Color × ℚ))) : Option (List (List (List ℚ))) :=
  buildRows orbit ori_nums scp lls orbit.pieces

/-- The color loop succeeds exactly when every scanned key is present
(the threaded row never affects which lookups happen). -/
theorem applyLLs_isSome (scp : SCPMap) (ori_num : ℕ) :
    ∀ (entries : List (Color × ℚ)) (row : List (List ℚ)),
      (applyLLs scp ori_num entries row).isSome = true ↔
        ∀ cl ∈ entries, (scp.lookup (ori_num, cl.1)).isSome = true := by
  intro entries
  induction entries with
  | nil =>
    intro row
    simp [applyLLs]
  | cons cl rest ih =>
    intro row
    obtain ⟨color, ll⟩ := cl
    rw [applyLLs]
    rcases hl : scp.lookup (ori_num, color) with _ | pairs
    · simp only [Option.isSome_none, Bool.false_eq_true, false_iff]
      intro hall
      have := hall (color, ll) (List.mem_cons_self _ _)
      rw [hl] at this
      cases this
    · rw [ih _]
      constructor
      · intro hall cl2 hmem
        rcases List.mem_cons.mp hmem with rfl | hmem2
        · rw [hl]
          rfl
        · exact hall cl2 hmem2
      · intro hall cl2 hmem
        exact hall cl2 (List.mem_cons_of_mem _ hmem)

/-- The sticker loop succeeds exactly when every scanned key is present. -/
theorem applyStickers_isSome (ori_nums : List ℕ) (scp : SCPMap)
    (lls : List (List (Color × ℚ))) :
    ∀ (stickers : List ℕ) (row : List (List ℚ)),
      (applyStickers ori_nums scp lls stickers row).isSome = true ↔
        ∀ sticker ∈ stickers, ∀ cl ∈ lls.getD sticker [],
          (scp.lookup (ori_nums.getD sticker 0, cl.1)).isSome = true := by
  intro stickers
  induction stickers with
  | nil =>
    intro row
    simp [applyStickers]
  | cons sticker rest ih =>
    intro row
    rw [applyStickers]
    rcases ha : applyLLs scp (ori_nums.getD sticker 0) (lls.getD sticker []) row with _ | row2
    · simp only [Option.isSome_none, Bool.false_eq_true, false_iff]
      intro hall
      have h1 := (applyLLs_isSome scp (ori_nums.getD sticker 0) (lls.getD sticker []) row).mpr
        (fun cl hcl => hall sticker (List.mem_cons_self _ _) cl hcl)
      rw [ha] at h1
      cases h1
    · rw [ih row2]
      constructor
      · intro hall sticker2 hmem cl hcl
        rcases List.mem_cons.mp hmem with rfl | hmem2
        · have h1 : (applyLLs scp (ori_nums.getD sticker2 0) (lls.getD sticker2 [])
              row).isSome = true := by
            rw [ha]
            rfl
          exact (applyLLs_isSome scp _ _ row).mp h1 cl hcl
        · exact hall sticker2 hmem2 cl hcl
      · intro hall sticker2 hmem cl hcl
        exact hall sticker2 (List.mem_cons_of_mem _ hmem) cl hcl

/-- C10: building the cost tensor succeeds exactly when, for every sticker
of every piece of the orbit, every color appearing in that sticker's
log-likelihood map has an entry `(orientation_number(sticker), color)` in
the orbit's `sticker_color_piece` map; a missing key makes the build fail
(the `.unwrap()` panic) rather than being skipped. -/
theorem C10_cost_build_totality (orbit : OrbitModel) (ori_nums : List ℕ)
    (scp : SCPMap) (lls : List (List (Color × ℚ))) :
    (buildCostMatrix orbit ori_nums scp lls).isSome = true ↔
      ∀ piece ∈ orbit.pieces, ∀ sticker ∈ piece.stickers,
        ∀ cl ∈ lls.getD sticker [],
          (scp.lookup (ori_nums.getD sticker 0, cl.1)).isSome = true := by
  rw [buildCostMatrix]
  have main : ∀ pieces : List PieceModel,
      (buildRows orbit ori_nums scp lls pieces).isSome = true ↔
        ∀ piece ∈ pieces, ∀ sticker ∈ piece.stickers, ∀ cl ∈ lls.getD sticker [],
          (scp.lookup (ori_nums.getD sticker 0, cl.1)).isSome = true := by
    intro pieces
    induction pieces with
    | nil => simp [buildRows]
    | cons piece rest ih =>
      rw [buildRows]
      rcases ha : applyStickers ori_nums scp lls piece.stickers
          (List.replicate orbit.pieces.length
            (List.replicate orbit.orientation_count 0)) with _ | row
      · simp only [Option.isSome_none, Bool.false_eq_true, false_iff]
        intro hall
        have h1 := (applyStickers_isSome ori_nums scp lls piece.stickers
            (List.replicate orbit.pieces.length
              (List.replicate orbit.orientation_count 0))).mpr
          (fun st hst cl hcl => hall piece (List.mem_cons_self _ _) st hst cl hcl)
        rw [ha] at h1
        cases h1
      · dsimp only
        rw [show (Option.map (fun x => row :: x)
              (buildRows orbit ori_nums scp lls rest)).isSome =
            (buildRows orbit ori_nums scp lls rest).isSome from by
          cases buildRows orbit ori_nums scp lls rest <;> rfl]
        rw [ih]
        constructor
        · intro hall piece2 hmem st hst cl hcl
          rcases List.mem_cons.mp hmem with rfl | hmem2
          · have h1 : (applyStickers ori_nums scp lls piece2.stickers
                (List.replicate orbit.pieces.length
                  (List.replicate orbit.orientation_count 0))).isSome = true := by
              rw [ha]
              rfl
            exact (applyStickers_isSome ori_nums scp lls piece2.stickers _).mp h1 st hst cl hcl
          · exact hall piece2 hmem2 st hst cl hcl
        · intro hall piece2 hmem st hst cl hcl
          exact hall piece2 (List.mem_cons_of_mem _ hmem) st hst cl hcl
  exact main orbit.pieces

/-- `max_by` over an enumerated list: the running maximum, later entries
winning ties (Rust's `max_by` returns the last maximal element). -/
def lastArgmax (l : List ℚ) : Option (ℕ × ℚ) :=
  l.enum.foldl
    (fun acc iv =>
      match acc with
      | none => some iv
      | some jm => if jm.2 > iv.2 then some jm else some iv)
    none

/-- The recomputation of one 2-D cell in `OrbitHeapElt::split`: the best
still-allowed orientation of `(i, j)` (enumerate, filter by the mask,
`max_by` the cost, later ties winning). -/
def lastArgmaxAllowed (costs : List ℚ) (mask : List Bool) : Option (ℕ × ℚ) :=
  ((costs.zip mask).enum.filter fun p => p.2.2).foldl
    (fun acc p =>
      match acc with
      | none => some (p.1, p.2.1)
      | some jm => if jm.2 > p.2.1 then some jm else some (p.1, p.2.1))
    none

/-- Overwrite `m[i][j]`. -/
def setAt2 {α : Type} (m : List (List α)) (i j : ℕ) (v : α) : List (List α) :=
  modifyAt m i fun r => modifyAt r j fun _ => v

/-- Set `m[i][j][k]`. -/
def setAt3 {α : Type} (m : List (List (List α))) (i j k : ℕ) (v : α) :
    List (List (List α)) :=
  modifyAt m i fun r => modifyAt r j fun os => modifyAt os k fun _ => v

/-- `struct OrbitHeapElt`. -/
structure OrbitHeapElt where
  allowed : List (List (List Bool))
  cost_matrix_2d : List (List (Option ℚ))
  oris_chosen : List (List (Option ℕ))
  log_likelihood : ℚ
  matching : List (ℕ × ℕ)
deriving DecidableEq

/-- `OrbitHeapElt::mk_matching`.  Outer `none` is a panic (one of the
source's `unwrap`s, or a panicking/diverging `maximum_matching` run);
`some none` is the gracefully propagated `None` (`?`) that drops a child. -/
def mk_matching (cost2d : List (List (Option ℚ))) (oris : List (List (Option ℕ))) :
    Option (Option (List (ℕ × ℕ) × ℚ)) :=
  match maximum_matching cost2d with
  | .panicked => none
  | .diverge => none
  | .returned none => some none
  | .returned (some m) =>
    let withOris := m.enum.map fun ij => (ij.2, (oris.getD ij.1 []).getD ij.2 none)
    let lls := m.enum.map fun ij => (cost2d.getD ij.1 []).getD ij.2 none
    if (withOris.all fun p => p.2.isSome) ∧ lls.all Option.isSome then
      some (some (withOris.map fun p => (p.1, p.2.getD 0),
        (lls.map fun o => o.getD 0).foldl (· + ·) 0))
    else none

/-- `OrbitHeapElt::new`: per 2-D cell, the best orientation (`max_by` over
axis 2, `unwrap` panicking on an empty axis), an all-true mask, and the
matching over the resulting 2-D costs (`unwrap` panicking when there is
none). -/
def orbitHeapEltNew (cost3d : List (List (List ℚ))) : Option OrbitHeapElt :=
  let maxima := cost3d.map fun row => row.map lastArgmax
  if maxima.all fun r => r.all Option.isSome then
    let cost2d := maxima.map fun r => r.map fun o => o.map (·.2)
    let oris := maxima.map fun r => r.map fun o => o.map (·.1)
    match mk_matching cost2d oris with
    | some (some ml) =>
      some
        { allowed := cost3d.map fun r => r.map fun os => os.map fun _ => true,
          cost_matrix_2d := cost2d, oris_chosen := oris,
          log_likelihood := ml.2, matching := ml.1 }
    | _ => none
  else none

/-- `OrbitHeapElt::split`: one child per matched position, each disallowing
its matched `(position, piece, orientation)` cell and recomputing that 2-D
entry and the matching; a child whose matching fails (`?`) is dropped;
outer `none` is a panic inside `mk_matching`. -/
def orbitSplit (elt : OrbitHeapElt) (cost3d : List (List (List ℚ))) :
    List (ℕ × (ℕ × ℕ)) → Option (List OrbitHeapElt)
  | [] => some []
  | (i, (j, ori)) :: rest =>
    let allowed2 := setAt3 elt.allowed i j ori false
    let maybe_ori := lastArgmaxAllowed ((cost3d.getD i []).getD j [])
      ((allowed2.getD i []).getD j [])
    let cost2d2 := setAt2 elt.cost_matrix_2d i j (maybe_ori.map (·.2))
    let oris2 := setAt2 elt.oris_chosen i j (maybe_ori.map (·.1))
    match mk_matching cost2d2 oris2 with
    | none => none
    | some none => orbitSplit elt cost3d rest
    | some (some ml) =>
      (orbitSplit elt cost3d rest).map
        ({ allowed := allowed2, cost_matrix_2d := cost2d2, oris_chosen := oris2,
           log_likelihood := ml.2, matching := ml.1 } :: ·)

/-- Remove the element with the greatest `ll` from a list modelling the
binary heap; the first among equally greatest elements is taken (the
source's heap order among ties is unspecified). -/
def popMaxBy {α : Type} (ll : α → ℚ) : List α → Option (α × List α)
  | [] => none
  | h :: t =>
    match popMaxBy ll t with
    | none => some (h, [])
    | some (m, rest) => if ll h ≥ ll m then some (h, t) else some (m, h :: rest)

/-- `while heap.peek() has the same key as item { heap.pop() }`. -/
def drainBy {α β : Type} [DecidableEq β] (ll : α → ℚ) (key : α → β) (k : β) :
    ℕ → List α → List α
  | 0, heap => heap
  | fuel + 1, heap =>
    match popMaxBy ll heap with
    | none => heap
    | some (m, rest) => if key m = k then drainBy ll key k fuel rest else heap

/-- The mutable state of `MatchIter`. -/
structure MatchIterState where
  heap : List OrbitHeapElt
  cache : Option OrbitHeapElt
deriving DecidableEq

/-- The inner sticker loop of the permutation construction in
`MatchIter::next`: each sticker of the position maps from the sticker of
piece `is` whose orientation number is its own plus `ori`
(`find(..).unwrap()` panics when absent). -/
def fillStickers (orbit : OrbitModel) (ori_nums : List ℕ) (is ori : ℕ) :
    List ℕ → List ℕ → Option (List ℕ)
  | [], m => some m
  | sticker_spot :: more, m =>
    match ((orbit.pieces.getD is ⟨[]⟩).stickers.find? fun v =>
        ori_nums.getD v 0 = ori_nums.getD sticker_spot 0 + ori) with
    | none => none
    | some found => fillStickers orbit ori_nums is ori more (m.set sticker_spot found)

/-- Build the `comes_from` image of the yielded permutation from the
matching, position by position. -/
def matchingToMapping (orbit : OrbitModel) (ori_nums : List ℕ) (fc : ℕ) :
    List (ℕ × (ℕ × ℕ)) → List ℕ → Option (List ℕ)
  | [], mapping => some mapping
  | (spot, (is, ori)) :: rest, mapping =>
    match fillStickers orbit ori_nums is ori (orbit.pieces.getD spot ⟨[]⟩).stickers
        mapping with
    | none => none
    | some m2 => matchingToMapping orbit ori_nums fc rest m2

/-- `MatchIter::next`: split the cached element into the heap, pop the
greatest element, drain duplicates (equal `allowed` masks), and yield the
permutation read off its matching together with its log-likelihood.
Outer `none` is a panic, `some none` an exhausted iterator. -/
def matchIterNext (orbit : OrbitModel) (ori_nums : List ℕ)
    (cost3d : List (List (List ℚ))) (fc : ℕ) (st : MatchIterState) :
    Option (Option ((List ℕ × ℚ) × MatchIterState)) :=
  match (match st.cache with
    | some item => (orbitSplit item cost3d item.matching.enum).map (st.heap ++ ·)
    | none => some st.heap) with
  | none => none
  | some heap1 =>
    match popMaxBy OrbitHeapElt.log_likelihood heap1 with
    | none => some none
    | some (item, rest) =>
      let rest2 := drainBy OrbitHeapElt.log_likelihood OrbitHeapElt.allowed
        item.allowed rest.length rest
      match matchingToMapping orbit ori_nums fc item.matching.enum (List.range fc) with
      | none => none
      | some mapping =>
        some (some ((mapping, item.log_likelihood),
          { heap := rest2, cache := some item }))

/-- Collect the first `n` outputs of `MatchIter` (`none` on a panic). -/
def matchIterTake (orbit : OrbitModel) (ori_nums : List ℕ)
    (cost3d : List (List (List ℚ))) (fc : ℕ) :
    ℕ → MatchIterState → Option (List (List ℕ × ℚ))
  | 0, _ => some []
  | n + 1, st =>
    match matchIterNext orbit ori_nums cost3d fc st with
    | none => none
    | some none => some []
    | some (some (out, st2)) =>
      (matchIterTake orbit ori_nums cost3d fc n st2).map (out :: ·)

/-- The two-piece, one-orientation orbit of the C3 counterexample: two
pieces with one sticker each. -/
def orbitCx : OrbitModel :=
  { pieces := [{ stickers := [0] }, { stickers := [1] }], orientation_count := 1 }

/-- Its cost tensor: `[[[0], [4e-10]], [[4e-10], [0]]]` — entries within the
matcher's `1e-9` tolerance of each other. -/
def cost3dCx : List (List (List ℚ)) :=
  [[[0], [4 / 10 ^ 10]], [[4 / 10 ^ 10], [0]]]

/-- C3 counterexample: on the two-piece orbit with cost tensor
`[[[0],[4e-10]],[[4e-10],[0]]]` the orbit stream's first two outputs have
log-likelihoods `0` and then `8e-10`: the sequence increases.  The root's
ε-Hungarian matching keeps the two `0` cells (all entries look tight within
`E = 1e-9`), while both children are forced into the strictly better
`4e-10 + 4e-10` matching. -/
theorem C3_matchiter_ll_increases :
    (orbitHeapEltNew cost3dCx).map
        (fun root => matchIterTake orbitCx [0, 0] cost3dCx 2 2
          { heap := [root], cache := none }) =
      some (some [([0, 1], 0), ([1, 0], 1 / 1250000000)]) ∧
    ¬ ((1 / 1250000000 : ℚ) ≤ (0 : ℚ)) :=
  ⟨by with_unfolding_all rfl, by norm_num⟩

/-- A whole-puzzle permutation is carried as its cycle list: the composer
only ever concatenates the per-orbit `cycles()` and rebuilds via
`from_cycles`, which on this representation is the identity. -/
abbrev Cycles : Type := List (List ℕ)

/-- The sum of the per-orbit log-likelihoods at the given indices
(`PuzzleHeapElt::new`; `SavedIter::get i` on a memoized stream is the
stream at `i`). -/
def sumLL (streams : List (ℕ → Cycles × ℚ)) (idxs : List ℕ) : ℚ :=
  (((streams.zip idxs).map fun si => (si.1 si.2).2)).sum

/-- `struct PuzzleHeapElt`. -/
structure PuzzleHeapElt where
  idxs : List ℕ
  log_likelihood : ℚ
deriving DecidableEq

/-- `PuzzleHeapElt::new`. -/
def puzzleHeapEltNew (streams : List (ℕ → Cycles × ℚ)) (idxs : List ℕ) :
    PuzzleHeapElt :=
  { idxs := idxs, log_likelihood := sumLL streams idxs }

/-- Increment coordinate `i` of an index vector. -/
def bump (idxs : List ℕ) (i : ℕ) : List ℕ :=
  modifyAt idxs i (· + 1)

/-- `PuzzleHeapElt::split`: the `k` neighbor index vectors. -/
def puzzleSplit (streams : List (ℕ → Cycles × ℚ)) (prev : PuzzleHeapElt) :
    List PuzzleHeapElt :=
  (List.range prev.idxs.length).map fun i => puzzleHeapEltNew streams (bump prev.idxs i)

/-- The mutable state of `PuzzleIter`. -/
structure PuzzleIterState where
  heap : List PuzzleHeapElt
  cache : Option PuzzleHeapElt
deriving DecidableEq

/-- The initial `PuzzleIter` state: the all-zero index vector on the heap
(`PuzzleIter::new`). -/
def puzzleIterInit (streams : List (ℕ → Cycles × ℚ)) : PuzzleIterState :=
  { heap := [puzzleHeapEltNew streams (List.replicate streams.length 0)],
    cache := none }

/-- `PuzzleIter::next`: push the cached vector's neighbors, pop the greatest
element, drain duplicate index vectors, and yield the concatenated cycles
with the summed log-likelihood.  `none` is an exhausted heap. -/
def puzzleHeapAfterSplit (streams : List (ℕ → Cycles × ℚ)) (st : PuzzleIterState) :
    List PuzzleHeapElt :=
  match st.cache with
  | some prev => st.heap ++ puzzleSplit streams prev
  | none => st.heap

/-- `PuzzleIter::next`, continued: pop the greatest element of the heap
after the cache split, drain duplicate index vectors, and yield the
concatenated cycles with the summed log-likelihood.  `none` is an exhausted
heap. -/
def puzzleIterNext (streams : List (ℕ → Cycles × ℚ)) (st : PuzzleIterState) :
    Option ((Cycles × ℚ) × PuzzleIterState) :=
  match popMaxBy PuzzleHeapElt.log_likelihood (puzzleHeapAfterSplit streams st) with
  | none => none
  | some (item, rest) =>
    let rest2 := drainBy PuzzleHeapElt.log_likelihood PuzzleHeapElt.idxs item.idxs
      rest.length rest
    some
      ((((streams.zip item.idxs).map fun si => (si.1 si.2).1).flatten,
          sumLL streams item.idxs),
        { heap := rest2, cache := some item })

/-- The `n`-th output of `PuzzleIter` together with the state after it. -/
def puzzleIterSeq (streams : List (ℕ → Cycles × ℚ)) (st : PuzzleIterState) :
    ℕ → Option ((Cycles × ℚ) × PuzzleIterState)
  | 0 => puzzleIterNext streams st
  | n + 1 =>
    match puzzleIterSeq streams st n with
    | none => none
    | some (_, st2) => puzzleIterNext streams st2

/-- Well-formedness of a heap element: its stored log-likelihood is the sum
of the streams at its indices. -/
def EltOK (streams : List (ℕ → Cycles × ℚ)) (e : PuzzleHeapElt) : Prop :=
  e.log_likelihood = sumLL streams e.idxs

/-- The `PuzzleIter` invariant: every heap element and the cached element
are well formed and bounded by `b`. -/
def PuzzleInv (streams : List (ℕ → Cycles × ℚ)) (st : PuzzleIterState) (b : ℚ) : Prop :=
  (∀ e ∈ st.heap, EltOK streams e ∧ e.log_likelihood ≤ b) ∧
  (∀ prev, st.cache = some prev → EltOK streams prev ∧ prev.log_likelihood ≤ b)

/-- When every stream is non-increasing, bumping one index cannot raise the
summed log-likelihood. -/
theorem sumLL_bump_le (streams : List (ℕ → Cycles × ℚ))
    (hmono : ∀ s ∈ streams, ∀ i : ℕ, (s (i + 1)).2 ≤ (s i).2) :
    ∀ (idxs : List ℕ) (i : ℕ), sumLL streams (bump idxs i) ≤ sumLL streams idxs := by
  induction streams with
  | nil =>
    intro idxs i
    simp [sumLL]
  | cons s ss ih =>
    intro idxs i
    cases idxs with
    | nil => simp [sumLL, bump, modifyAt]
    | cons x xs =>
      cases i with
      | zero =>
        simp only [sumLL, bump, modifyAt, List.zip_cons_cons, List.map_cons, List.sum_cons]
        exact add_le_add_right (hmono s (List.mem_cons_self _ _) x) _
      | succ i2 =>
        simp only [sumLL, bump, modifyAt, List.zip_cons_cons, List.map_cons, List.sum_cons]
        refine add_le_add_left ?_ _
        exact ih (fun s2 hs2 j => hmono s2 (List.mem_cons_of_mem _ hs2) j) xs i2

/-- `popMaxBy` returns `none` only on the empty list. -/
theorem popMaxBy_eq_none {α : Type} (ll : α → ℚ) :
    ∀ heap : List α, popMaxBy ll heap = none → heap = [] := by
  intro heap h
  cases heap with
  | nil => rfl
  | cons a b =>
    rw [popMaxBy] at h
    rcases hb : popMaxBy ll b with _ | mr
    · rw [hb] at h
      cases h
    · obtain ⟨m, r⟩ := mr
      rw [hb] at h
      dsimp only at h
      split_ifs at h <;> cases h

/-- `popMaxBy` pops a member, leaves only members, and pops a maximum. -/
theorem popMaxBy_spec {α : Type} (ll : α → ℚ) :
    ∀ (heap : List α) (m : α) (rest : List α), popMaxBy ll heap = some (m, rest) →
      m ∈ heap ∧ (∀ e ∈ rest, e ∈ heap) ∧ (∀ e ∈ heap, ll e ≤ ll m) := by
  intro heap
  induction heap with
  | nil =>
    intro m rest h
    cases h
  | cons h t ih =>
    intro m rest hpop
    rw [popMaxBy] at hpop
    rcases hrec : popMaxBy ll t with _ | mr
    · have ht : t = [] := popMaxBy_eq_none ll t hrec
      subst ht
      rw [hrec] at hpop
      dsimp only at hpop
      cases hpop
      refine ⟨List.mem_cons_self _ _, ?_, ?_⟩
      · intro e he
        cases he
      · intro e he
        rcases List.mem_cons.mp he with rfl | he2
        · exact le_refl _
        · cases he2
    · obtain ⟨m2, rest2⟩ := mr
      obtain ⟨hm2, hr2, hmax2⟩ := ih m2 rest2 hrec
      rw [hrec] at hpop
      dsimp only at hpop
      split_ifs at hpop with hge
      · cases hpop
        refine ⟨List.mem_cons_self _ _, fun e he => List.mem_cons_of_mem _ he, ?_⟩
        intro e he
        rcases List.mem_cons.mp he with rfl | he2
        · exact le_refl _
        · exact le_trans (hmax2 e he2) hge
      · cases hpop
        push_neg at hge
        refine ⟨List.mem_cons_of_mem _ hm2, ?_, ?_⟩
        · intro e he
          rcases List.mem_cons.mp he with rfl | he2
          · exact List.mem_cons_self _ _
          · exact List.mem_cons_of_mem _ (hr2 e he2)
        · intro e he
          rcases List.mem_cons.mp he with rfl | he2
          · exact le_of_lt hge
          · exact hmax2 e he2

/-- `drainBy` only removes elements. -/
theorem drainBy_subset {α β : Type} [DecidableEq β] (ll : α → ℚ) (key : α → β) (k : β) :
    ∀ (fuel : ℕ) (heap : List α) (e : α), e ∈ drainBy ll key k fuel heap → e ∈ heap := by
  intro fuel
  induction fuel with
  | zero =>
    intro heap e he
    exact he
  | succ f ih =>
    intro heap e he
    rw [drainBy] at he
    rcases hpop : popMaxBy ll heap with _ | mr
    · rw [hpop] at he
      exact he
    · obtain ⟨m, rest⟩ := mr
      rw [hpop] at he
      dsimp only at he
      split_ifs at he with hk
      · exact (popMaxBy_spec ll heap m rest hpop).2.1 e (ih rest e he)
      · exact he
/-- Every element of a freshly built `PuzzleHeapElt` is well formed. -/
theorem EltOK_new (streams : List (ℕ → Cycles × ℚ)) (idxs : List ℕ) :
    EltOK streams (puzzleHeapEltNew streams idxs) := rfl

/-- One `PuzzleIter::next` step: from a state whose elements are bounded by
`b`, the yielded log-likelihood is at most `b` and the resulting state is
bounded by the yielded value (the streams being non-increasing). -/
theorem puzzleIterNext_step (streams : List (ℕ → Cycles × ℚ))
    (hmono : ∀ s ∈ streams, ∀ i : ℕ, (s (i + 1)).2 ≤ (s i).2)
    (st : PuzzleIterState) (b : ℚ) (hinv : PuzzleInv streams st b)
    (out : Cycles × ℚ) (st2 : PuzzleIterState)
    (h : puzzleIterNext streams st = some (out, st2)) :
    out.2 ≤ b ∧ PuzzleInv streams st2 out.2 := by
  obtain ⟨hheap, hcache⟩ := hinv
  have hheap1 : ∀ e ∈ puzzleHeapAfterSplit streams st,
      EltOK streams e ∧ e.log_likelihood ≤ b := by
    obtain ⟨heap0, cache0⟩ := st
    cases cache0 with
    | none => exact fun e he => hheap e he
    | some prev =>
      intro e he
      rcases List.mem_append.mp he with he2 | he2
      · exact hheap e he2
      · obtain ⟨i, _, rfl⟩ := List.mem_map.mp he2
        obtain ⟨hok, hle⟩ := hcache prev rfl
        refine ⟨EltOK_new streams _, ?_⟩
        calc (puzzleHeapEltNew streams (bump prev.idxs i)).log_likelihood
            = sumLL streams (bump prev.idxs i) := rfl
          _ ≤ sumLL streams prev.idxs := sumLL_bump_le streams hmono prev.idxs i
          _ = prev.log_likelihood := hok.symm
          _ ≤ b := hle
  rw [puzzleIterNext] at h
  rcases hpop : popMaxBy PuzzleHeapElt.log_likelihood (puzzleHeapAfterSplit streams st)
    with _ | ir
  · rw [hpop] at h
    cases h
  · obtain ⟨item, rest⟩ := ir
    obtain ⟨hitem_mem, hrest_mem, hmax⟩ :=
      popMaxBy_spec PuzzleHeapElt.log_likelihood _ item rest hpop
    obtain ⟨hok, hle⟩ := hheap1 item hitem_mem
    rw [hpop] at h
    dsimp only at h
    cases h
    refine ⟨?_, ?_, ?_⟩
    · exact hok ▸ hle
    · intro e he
      have he2 := hrest_mem e
        (drainBy_subset PuzzleHeapElt.log_likelihood PuzzleHeapElt.idxs item.idxs
          rest.length rest e he)
      obtain ⟨hok2, _⟩ := hheap1 e he2
      exact ⟨hok2, hok ▸ hmax e he2⟩
    · intro prev hprev
      cases hprev
      exact ⟨hok, le_of_eq hok⟩

/-- Every reachable `PuzzleIter` state is bounded by the output that led to
it. -/
theorem puzzleIterSeq_inv (streams : List (ℕ → Cycles × ℚ))
    (hmono : ∀ s ∈ streams, ∀ i : ℕ, (s (i + 1)).2 ≤ (s i).2) :
    ∀ (n : ℕ) (out : Cycles × ℚ) (st2 : PuzzleIterState),
      puzzleIterSeq streams (puzzleIterInit streams) n = some (out, st2) →
      PuzzleInv streams st2 out.2 := by
  intro n
  induction n with
  | zero =>
    intro out st2 h
    have hinv0 : PuzzleInv streams (puzzleIterInit streams)
        (puzzleHeapEltNew streams (List.replicate streams.length 0)).log_likelihood := by
      constructor
      · intro e he
        rw [puzzleIterInit] at he
        rcases List.mem_cons.mp he with rfl | he2
        · exact ⟨EltOK_new streams _, le_refl _⟩
        · cases he2
      · intro prev hprev
        cases hprev
    exact (puzzleIterNext_step streams hmono _ _ hinv0 out st2 h).2
  | succ n ih =>
    intro out st2 h
    rw [puzzleIterSeq] at h
    rcases hseq : puzzleIterSeq streams (puzzleIterInit streams) n with _ | os
    · rw [hseq] at h
      cases h
    · obtain ⟨out1, st1⟩ := os
      rw [hseq] at h
      dsimp only at h
      exact (puzzleIterNext_step streams hmono st1 out1.2 (ih out1 st1 hseq) out st2 h).2

/-- C3 (amended): the whole-puzzle stream is non-increasing whenever every
per-orbit stream is non-increasing — consecutive outputs of `PuzzleIter`
started from the all-zero index vector never increase.  (The orbit stream
itself is not necessarily non-increasing: see the counterexample, where the
ε-tolerant matching makes a child strictly beat its parent.) -/
theorem C3_puzzleiter_descending (streams : List (ℕ → Cycles × ℚ))
    (hmono : ∀ s ∈ streams, ∀ i : ℕ, (s (i + 1)).2 ≤ (s i).2)
    (n : ℕ) (out1 : Cycles × ℚ) (st1 : PuzzleIterState) (out2 : Cycles × ℚ)
    (st2 : PuzzleIterState)
    (h1 : puzzleIterSeq streams (puzzleIterInit streams) n = some (out1, st1))
    (h2 : puzzleIterNext streams st1 = some (out2, st2)) :
    out2.2 ≤ out1.2 :=
  (puzzleIterNext_step streams hmono st1 out1.2
    (puzzleIterSeq_inv streams hmono n out1 st1 h1) out2 st2 h2).1

/-- A concrete non-increasing orbit stream for the C3 witness. -/
def streamCx : ℕ → Cycles × ℚ := fun i => ([[0, 1]], -(i : ℚ))

/-- C3 witness: on the single stream `i ↦ −i` the first two whole-puzzle
outputs are `0` then `−1`, and the amended theorem yields `−1 ≤ 0`. -/
theorem C3_puzzleiter_descending_witness :
    (∀ s ∈ [streamCx], ∀ i : ℕ, (s (i + 1)).2 ≤ (s i).2) ∧
    puzzleIterSeq [streamCx] (puzzleIterInit [streamCx]) 0 =
      some (([[0, 1]], 0),
        { heap := [], cache := some { idxs := [0], log_likelihood := 0 } }) ∧
    puzzleIterNext [streamCx]
        { heap := [], cache := some { idxs := [0], log_likelihood := 0 } } =
      some (([[0, 1]], -1),
        { heap := [], cache := some { idxs := [1], log_likelihood := -1 } }) ∧
    (([[0, 1]], (-1 : ℚ)) : Cycles × ℚ).2 ≤ (([[0, 1]], (0 : ℚ)) : Cycles × ℚ).2 := by
  have hm : ∀ s ∈ [streamCx], ∀ i : ℕ, (s (i + 1)).2 ≤ (s i).2 := by
    intro s hs i
    have hseq : s = streamCx := by simpa using hs
    subst hseq
    simp only [streamCx]
    push_cast
    linarith
  refine ⟨hm, by with_unfolding_all rfl, by with_unfolding_all rfl, ?_⟩
  exact C3_puzzleiter_descending [streamCx] hm 0 ([[0, 1]], 0)
    { heap := [], cache := some { idxs := [0], log_likelihood := 0 } }
    ([[0, 1]], -1)
    { heap := [], cache := some { idxs := [1], log_likelihood := -1 } }
    (by with_unfolding_all rfl) (by with_unfolding_all rfl)

/-- The `find`/`unwrap` of `Matcher::most_likely`, with fuel bounding the
number of candidates examined. -/
def findMember (isMember : Cycles → Bool) (streams : List (ℕ → Cycles × ℚ)) :
    ℕ → PuzzleIterState → Option (Cycles × ℚ)
  | 0, _ => none
  | fuel + 1, st =>
    match puzzleIterNext streams st with
    | none => none
    | some (out, st2) =>
      if isMember out.1 then some out else findMember isMember streams fuel st2

/-- `Matcher::most_likely`: start the whole-puzzle stream at the all-zero
index vector and return the first candidate passing the stabilizer-chain
membership test (`is_member` abstracts the external chain; the per-orbit
streams abstract the orbit matchers feeding the composer). -/
def most_likely (isMember : Cycles → Bool) (streams : List (ℕ → Cycles × ℚ))
    (fuel : ℕ) : Option (Cycles × ℚ) :=
  findMember isMember streams fuel (puzzleIterInit streams)

/-- Whatever `findMember` returns passed the membership test. -/
theorem findMember_member (isMember : Cycles → Bool)
    (streams : List (ℕ → Cycles × ℚ)) :
    ∀ (fuel : ℕ) (st : PuzzleIterState) (p : Cycles) (l : ℚ),
      findMember isMember streams fuel st = some (p, l) → isMember p = true := by
  intro fuel
  induction fuel with
  | zero =>
    intro st p l h
    cases h
  | succ f ih =>
    intro st p l h
    rw [findMember] at h
    rcases hn : puzzleIterNext streams st with _ | os
    · rw [hn] at h
      cases h
    · obtain ⟨out, st2⟩ := os
      rw [hn] at h
      dsimp only at h
      split_ifs at h with hmem
      · cases h
        exact hmem
      · exact ih st2 p l h

/-- C1: whenever `process_image` (that is, `Matcher::most_likely`) returns a
permutation, that permutation satisfies `is_member` on the full group's
stabilizer chain: the returned candidate is by construction the first
survivor of the membership filter, for every image and calibrated state
(equivalently, for every collection of orbit streams the inference feeds the
composer). -/
theorem C1_group_closure (isMember : Cycles → Bool)
    (streams : List (ℕ → Cycles × ℚ)) (fuel : ℕ) (p : Cycles) (l : ℚ)
    (h : most_likely isMember streams fuel = some (p, l)) : isMember p = true :=
  findMember_member isMember streams fuel (puzzleIterInit streams) p l h

/-- C1 witness: with the always-true membership test and the stream
`streamCx`, the most likely candidate is returned and passes the test. -/
theorem C1_group_closure_witness :
    most_likely (fun _ => true) [streamCx] 1 = some ([[0, 1]], 0) ∧
    (fun _ => true) ([[0, 1]] : Cycles) = true :=
  ⟨by with_unfolding_all rfl,
    C1_group_closure (fun _ => true) [streamCx] 1 [[0, 1]] 0
      (by with_unfolding_all rfl)⟩

end Qvis
